import Mathlib

/-!
# Verification of the cnspec in-memory policy resolver and bundle map

This file gives a shallow embedding of the core of
`internal/datalakes/inmemory/policyresolver.go` and `policy/bundle_map.go`
and proves properties of the embedded operations.

Modelling conventions:
- Go maps that are iterated are modelled as association lists; quantifying
  over lists covers every possible Go map iteration order.
- The in-memory LRU cache is modelled as an association list keyed by the
  same composite keys the Go code uses (`asset + "\x00" + checksum` pairs
  become actual pairs, which is faithful because the nul separator makes the
  Go keys unambiguous).
- Cache admission (`cache.Set` returning false) is modelled as always
  succeeding; an admission refusal is an environment-dependent hard error
  in the source and is outside the modelled state.
- Machine integers (uint32 counters, int64 unix times) are modelled as
  `Nat` / `Int`; none of the modelled code paths can overflow them.
-/

namespace Cnspec

/-! ## Association-list store primitives -/

/-- Lookup in an association-list store (first match wins, like a Go map). -/
def lookupA {κ β : Type} [DecidableEq κ] : List (κ × β) → κ → Option β
  | [], _ => none
  | (k, v) :: rest, key => if k = key then some v else lookupA rest key

/-- Write a key in an association-list store: the new binding shadows and
replaces any previous binding of the same key. -/
def setA {κ β : Type} [DecidableEq κ] (l : List (κ × β)) (key : κ) (v : β) :
    List (κ × β) :=
  (key, v) :: l.filter (fun p => p.1 ≠ key)

/-- Update the value stored at a key in place (no-op if the key is absent).
This models a mutation through Go's shared map/pointer references, which is
visible in the cache without an explicit `cache.Set`. -/
def updA {κ β : Type} [DecidableEq κ] (l : List (κ × β)) (key : κ) (f : β → β) :
    List (κ × β) :=
  l.map (fun p => if p.1 = key then (p.1, f p.2) else p)

theorem lookupA_cons {κ β : Type} [DecidableEq κ] (a : κ × β) (t : List (κ × β)) (key : κ) :
    lookupA (a :: t) key = if a.1 = key then some a.2 else lookupA t key := rfl

theorem lookupA_filter_ne {κ β : Type} [DecidableEq κ] (l : List (κ × β)) (k k' : κ) :
    lookupA (l.filter (fun p => p.1 ≠ k)) k' =
      if k' = k then none else lookupA l k' := by
  induction l with
  | nil => simp [lookupA]
  | cons p rest ih =>
    by_cases hpk : p.1 = k
    · simp only [List.filter_cons, hpk, ne_eq, not_true_eq_false, decide_False,
        Bool.false_eq_true, if_false, ih, lookupA_cons]
      split_ifs <;> simp_all
    · simp only [List.filter_cons, hpk, ne_eq, not_false_eq_true, decide_True,
        if_true, lookupA_cons, ih]
      split_ifs <;> simp_all

theorem lookupA_setA {κ β : Type} [DecidableEq κ] (l : List (κ × β)) (k k' : κ) (v : β) :
    lookupA (setA l k v) k' = if k' = k then some v else lookupA l k' := by
  simp only [setA, lookupA_cons, lookupA_filter_ne]
  split_ifs <;> simp_all

theorem lookupA_updA {κ β : Type} [DecidableEq κ] (l : List (κ × β)) (k k' : κ) (f : β → β) :
    lookupA (updA l k f) k' =
      if k' = k then (lookupA l k').map f else lookupA l k' := by
  induction l with
  | nil => simp [lookupA, updA]
  | cons p rest ih =>
    have hcons : updA (p :: rest) k f
        = (if p.1 = k then (p.1, f p.2) else p) :: updA rest k f := rfl
    rw [hcons]
    by_cases hpk : p.1 = k
    · rw [if_pos hpk]
      simp only [lookupA_cons, ih]
      split_ifs <;> simp_all
    · rw [if_neg hpk]
      simp only [lookupA_cons, ih]
      split_ifs <;> simp_all

theorem lookupA_mem_keys {κ β : Type} [DecidableEq κ] (l : List (κ × β)) (k : κ) (v : β)
    (h : lookupA l k = some v) : k ∈ l.map Prod.fst := by
  induction l with
  | nil => simp [lookupA] at h
  | cons p rest ih =>
    simp only [lookupA] at h
    by_cases hk : p.1 = k
    · simp [hk.symm]
    · simp only [hk, if_false] at h
      simp [ih h]

theorem lookupA_isSome_of_mem_keys {κ β : Type} [DecidableEq κ] (l : List (κ × β)) (k : κ)
    (h : k ∈ l.map Prod.fst) : (lookupA l k).isSome := by
  induction l with
  | nil => simp at h
  | cons p rest ih =>
    simp only [List.map, List.mem_cons] at h
    by_cases hk : p.1 = k
    · simp [lookupA, hk]
    · rcases h with h | h
      · exact absurd h.symm hk
      · simp only [lookupA, hk, if_false]
        exact ih h

/-! ## Scores

`policy.Score` is a protobuf message of the repository's `policy` package,
which is not among the given source files. Modelled from the spec:
`Score = {QrId, Type ∈ {Unknown, Result, Error, Skip}, Value, Weight,
DataCompletion, DataTotal, ScoreCompletion, Message, ValueModifiedTime,
FailureTime}`; the zero value `policy.Score{}` has `Type = Unknown` and all
numeric fields zero. -/

inductive ScoreType : Type where
  | unknown
  | result
  | error
  | skip
deriving DecidableEq

structure Score : Type where
  qrId : String
  type : ScoreType
  value : Nat
  weight : Nat
  scoreCompletion : Nat
  dataCompletion : Nat
  dataTotal : Nat
  message : String
  valueModifiedTime : Int
  failureTime : Int
deriving DecidableEq

/-- The zero value `policy.Score{}` (used by `initEmptyScore`). -/
def Score.empty : Score :=
  ⟨"", .unknown, 0, 0, 0, 0, 0, "", 0, 0⟩

/-- The score store: the `"score/" + assetMrn + "\x00" + qrId` slots of the
in-memory cache. -/
def ScoreStore : Type := List ((String × String) × Score)

instance : DecidableEq ScoreStore := by
  unfold ScoreStore
  infer_instance

/-- Model of `GetScore` (policyresolver.go): fetch one score slot; a miss is an error,
modelled as `none`. -/
def GetScore (db : ScoreStore) (assetMrn scoreID : String) : Option Score :=
  lookupA db (assetMrn, scoreID)

/-- Model of `updateScore` (policyresolver.go): set one score and return true if it was
updated. The cache write is modelled as always admitted. -/
def updateScore (db : ScoreStore) (assetMrn : String) (score : Score) (now : Int) :
    Bool × ScoreStore :=
  match GetScore db assetMrn score.qrId with
  | some org =>
    if org.value = score.value ∧ org.type = score.type ∧
        org.dataCompletion = score.dataCompletion ∧ org.dataTotal = score.dataTotal ∧
        org.scoreCompletion = score.scoreCompletion ∧ org.weight = score.weight then
      (false, db)
    else
      let s :=
        if org.scoreCompletion = 0 ∧ score.type = .result then
          { score with
            valueModifiedTime := now
            failureTime := if score.value = 100 ∨ score.scoreCompletion < 100 then 0 else now }
        else if (org.value ≠ score.value ∨ org.scoreCompletion = 0) ∧ score.type = .result then
          { score with
            valueModifiedTime := now
            failureTime := if org.value = 100 then now else org.failureTime }
        else
          { score with
            valueModifiedTime := org.valueModifiedTime
            failureTime := org.failureTime }
      (true, setA db (assetMrn, score.qrId) s)
  | none =>
    let s :=
      { score with
        valueModifiedTime := now
        failureTime := if score.value = 100 ∨ score.scoreCompletion < 100 then 0 else now }
    (true, setA db (assetMrn, score.qrId) s)

/-- Model of `UpdateScores` (policyresolver.go): set the given scores, returning the set
of qrIds that were actually updated together with the new store. -/
def UpdateScores (db : ScoreStore) (assetMrn : String) (scores : List Score) (now : Int) :
    List String × ScoreStore :=
  match scores with
  | [] => ([], db)
  | score :: rest =>
    let (ok, db') := updateScore db assetMrn score now
    let (updated, db'') := UpdateScores db' assetMrn rest now
    (if ok then score.qrId :: updated else updated, db'')

/-! ## Claims C2, C3, C4: score update semantics -/

/-- Claim C2 — First persistence of a score: for every call to `updateScore` where
no previous score is stored at `(asset, qrId)` and the incoming score has
`Type = Result`, the persisted score has `ValueModifiedTime = now`, and
`FailureTime = 0` if and only if `Value == 100` or `ScoreCompletion < 100`,
otherwise `FailureTime = now`. (The `iff` reading requires `now ≠ 0`, which
holds for unix timestamps; the conditional equation is proved as well.) -/
theorem updateScore_first_persistence
    (db : ScoreStore) (assetMrn : String) (score : Score) (now : Int)
    (hnone : GetScore db assetMrn score.qrId = none)
    (htype : score.type = .result) (hnow : now ≠ 0) :
    ∃ s, GetScore (updateScore db assetMrn score now).2 assetMrn score.qrId = some s ∧
      s.valueModifiedTime = now ∧
      s.failureTime = (if score.value = 100 ∨ score.scoreCompletion < 100 then 0 else now) ∧
      (s.failureTime = 0 ↔ (score.value = 100 ∨ score.scoreCompletion < 100)) := by
  have _ := htype
  have hstep : updateScore db assetMrn score now = (true, setA db (assetMrn, score.qrId)
      { score with
        valueModifiedTime := now
        failureTime := if score.value = 100 ∨ score.scoreCompletion < 100 then 0 else now }) := by
    simp only [updateScore, hnone]
  refine ⟨{ score with
      valueModifiedTime := now
      failureTime := if score.value = 100 ∨ score.scoreCompletion < 100 then 0 else now },
    ?_, rfl, rfl, ?_⟩
  · rw [hstep]
    simp [GetScore, lookupA_setA]
  · dsimp only
    split_ifs with h
    · simp [h]
    · simp [h, hnow]

/-- Witness for C2 at a concrete input. -/
theorem updateScore_first_persistence_witness :
    ∃ s, GetScore (updateScore [] "a"
        (⟨"q", .result, 50, 0, 100, 0, 0, "", 0, 0⟩ : Score) 7).2 "a"
        (⟨"q", .result, 50, 0, 100, 0, 0, "", 0, 0⟩ : Score).qrId = some s ∧
      s.valueModifiedTime = 7 ∧
      s.failureTime = (if (⟨"q", .result, 50, 0, 100, 0, 0, "", 0, 0⟩ : Score).value = 100 ∨
          (⟨"q", .result, 50, 0, 100, 0, 0, "", 0, 0⟩ : Score).scoreCompletion < 100 then 0 else 7) ∧
      (s.failureTime = 0 ↔ ((⟨"q", .result, 50, 0, 100, 0, 0, "", 0, 0⟩ : Score).value = 100 ∨
          (⟨"q", .result, 50, 0, 100, 0, 0, "", 0, 0⟩ : Score).scoreCompletion < 100)) :=
  updateScore_first_persistence [] "a" ⟨"q", .result, 50, 0, 100, 0, 0, "", 0, 0⟩ 7
    rfl rfl (by decide)

/-- Claim C3 counterexample — The claim "for every call to updateScore where a
previous score exists, the incoming score has Type = Result, and the incoming
Value differs from the previous Value, ... FailureTime is now if the previous
Value was 100, and otherwise equals the previous score's FailureTime" is false
as stated: a previous score with `ScoreCompletion = 0` (the placeholder written
by `initEmptyScore`) takes the first-persistence branch, so the persisted
`FailureTime` is `now` (= 5 here) and not the previous `FailureTime` (= 77)
although the previous `Value` (= 50) is not 100. -/
theorem updateScore_failure_transition_cex :
    GetScore [(("a", "q"), (⟨"q", .result, 50, 0, 0, 0, 0, "", 0, 77⟩ : Score))] "a" "q"
        = some ⟨"q", .result, 50, 0, 0, 0, 0, "", 0, 77⟩ ∧
      (⟨"q", .result, 50, 0, 0, 0, 0, "", 0, 77⟩ : Score).value ≠ 100 ∧
      (⟨"q", .result, 50, 0, 0, 0, 0, "", 0, 77⟩ : Score).value ≠
        (⟨"q", .result, 30, 0, 100, 0, 0, "", 0, 0⟩ : Score).value ∧
      (⟨"q", .result, 30, 0, 100, 0, 0, "", 0, 0⟩ : Score).type = .result ∧
      (GetScore (updateScore [(("a", "q"), ⟨"q", .result, 50, 0, 0, 0, 0, "", 0, 77⟩)] "a"
          (⟨"q", .result, 30, 0, 100, 0, 0, "", 0, 0⟩ : Score) 5).2 "a" "q").map Score.failureTime
        = some 5 ∧
      (5 : Int) ≠ (⟨"q", .result, 50, 0, 0, 0, 0, "", 0, 77⟩ : Score).failureTime := by
  decide

/-- Claim C3 amended — Failure transition of a score: for every call to
`updateScore` where a previous score exists **whose `ScoreCompletion` is not 0**
(a zero `ScoreCompletion` marks the empty placeholder score and takes the
first-persistence branch instead), the incoming score has `Type = Result`, and
the incoming `Value` differs from the previous `Value`: the persisted score has
`ValueModifiedTime = now`; its `FailureTime` is `now` if the previous `Value`
was 100, and otherwise equals the previous score's `FailureTime`. -/
theorem updateScore_failure_transition
    (db : ScoreStore) (assetMrn : String) (score : Score) (now : Int) (org : Score)
    (hprev : GetScore db assetMrn score.qrId = some org)
    (hsc : org.scoreCompletion ≠ 0)
    (htype : score.type = .result)
    (hval : org.value ≠ score.value) :
    ∃ s, GetScore (updateScore db assetMrn score now).2 assetMrn score.qrId = some s ∧
      s.valueModifiedTime = now ∧
      s.failureTime = (if org.value = 100 then now else org.failureTime) := by
  have hstep : updateScore db assetMrn score now = (true, setA db (assetMrn, score.qrId)
      { score with
        valueModifiedTime := now
        failureTime := if org.value = 100 then now else org.failureTime }) := by
    simp only [updateScore, hprev]
    rw [if_neg (by intro h; exact hval h.1)]
    rw [if_neg (by intro h; exact hsc h.1)]
    rw [if_pos ⟨Or.inl hval, htype⟩]
  refine ⟨{ score with
      valueModifiedTime := now
      failureTime := if org.value = 100 then now else org.failureTime }, ?_, rfl, rfl⟩
  rw [hstep]
  simp [GetScore, lookupA_setA]

/-- Witness for the amended C3 at a concrete input: previous score is a real
(completed) failing score, the incoming result flips the value. -/
theorem updateScore_failure_transition_witness :
    ∃ s, GetScore (updateScore [(("a", "q"), ⟨"q", .result, 40, 0, 100, 0, 0, "", 2, 2⟩)] "a"
        (⟨"q", .result, 30, 0, 100, 0, 0, "", 0, 0⟩ : Score) 9).2 "a"
        (⟨"q", .result, 30, 0, 100, 0, 0, "", 0, 0⟩ : Score).qrId = some s ∧
      s.valueModifiedTime = 9 ∧
      s.failureTime = (if (⟨"q", .result, 40, 0, 100, 0, 0, "", 2, 2⟩ : Score).value = 100
        then 9 else (⟨"q", .result, 40, 0, 100, 0, 0, "", 2, 2⟩ : Score).failureTime) :=
  updateScore_failure_transition
    [(("a", "q"), ⟨"q", .result, 40, 0, 100, 0, 0, "", 2, 2⟩)] "a"
    ⟨"q", .result, 30, 0, 100, 0, 0, "", 0, 0⟩ 9
    ⟨"q", .result, 40, 0, 100, 0, 0, "", 2, 2⟩
    (by decide) (by decide) rfl (by decide)

/-- Claim C4 — Score update no-op: for every call to `updateScore` where a
previous score exists at `(asset, qrId)` and the incoming score's `Value`,
`Type`, `DataCompletion`, `DataTotal`, `ScoreCompletion` and `Weight` all equal
the stored values, the stored score is left entirely unchanged (the whole store
is returned as-is, so in particular its `Message`, `ValueModifiedTime` and
`FailureTime` are untouched), no error is returned, and the qrId does not
appear in the updated set returned by `UpdateScores` — even when the incoming
`Message` differs from the stored one (no hypothesis constrains the incoming
`Message`). -/
theorem updateScore_noop
    (db : ScoreStore) (assetMrn : String) (score : Score) (now : Int) (org : Score)
    (hprev : GetScore db assetMrn score.qrId = some org)
    (heq : org.value = score.value ∧ org.type = score.type ∧
      org.dataCompletion = score.dataCompletion ∧ org.dataTotal = score.dataTotal ∧
      org.scoreCompletion = score.scoreCompletion ∧ org.weight = score.weight) :
    updateScore db assetMrn score now = (false, db) ∧
      GetScore db assetMrn score.qrId = some org ∧
      UpdateScores db assetMrn [score] now = ([], db) := by
  have h1 : updateScore db assetMrn score now = (false, db) := by
    simp only [updateScore, hprev]
    rw [if_pos heq]
  refine ⟨h1, hprev, ?_⟩
  simp [UpdateScores, h1]

/-- Witness for C4 at a concrete input: same six compared fields, different
message and timestamps on the incoming score. -/
theorem updateScore_noop_witness :
    updateScore [(("a", "q"), ⟨"q", .result, 100, 1, 100, 2, 3, "old", 4, 0⟩)] "a"
        (⟨"q", .result, 100, 1, 100, 2, 3, "new message", 8, 9⟩ : Score) 5 =
      (false, [(("a", "q"), ⟨"q", .result, 100, 1, 100, 2, 3, "old", 4, 0⟩)]) ∧
      GetScore [(("a", "q"), ⟨"q", .result, 100, 1, 100, 2, 3, "old", 4, 0⟩)] "a"
        (⟨"q", .result, 100, 1, 100, 2, 3, "new message", 8, 9⟩ : Score).qrId =
        some ⟨"q", .result, 100, 1, 100, 2, 3, "old", 4, 0⟩ ∧
      UpdateScores [(("a", "q"), ⟨"q", .result, 100, 1, 100, 2, 3, "old", 4, 0⟩)] "a"
        [⟨"q", .result, 100, 1, 100, 2, 3, "new message", 8, 9⟩] 5 =
      ([], [(("a", "q"), ⟨"q", .result, 100, 1, 100, 2, 3, "old", 4, 0⟩)]) :=
  updateScore_noop [(("a", "q"), ⟨"q", .result, 100, 1, 100, 2, 3, "old", 4, 0⟩)] "a"
    ⟨"q", .result, 100, 1, 100, 2, 3, "new message", 8, 9⟩ 5
    ⟨"q", .result, 100, 1, 100, 2, 3, "old", 4, 0⟩
    (by decide) (by decide)

/-! ## Policy wrappers and `MutatePolicy`

`wrapPolicy` is declared in the inmemory package outside the given source
files; its shape is modelled from the spec (§4.3): the policy proto, mirrored
`parents`/`children` MRN sets, declared properties, and an `invalidated` flag.
For the policy proto itself only the parts `MutatePolicy` touches are
modelled: the groups, each group by the list of MRNs of its `Policies` refs.
The `invalidated` flag and the filter/checksum fields mutated by
`refreshAssetFilters` / `UpdateChecksums` are not part of the modelled state;
the modelled effects of those calls are their existence checks. Go wrapPolicy values
share their `parents`/`children` maps and the policy pointer between the cache
and local copies, so mutations through them are modelled as in-place store
updates (`updA`). -/

structure SProp : Type where
  mrn : String
  uid : String
  mql : String
deriving DecidableEq

structure WrapPolicy : Type where
  groups : List (List String)
  props : List SProp
  parents : List String
  children : List String
deriving DecidableEq

/-- The policy slots (`"policy/" + mrn`) of the in-memory cache. -/
def PStore : Type := List (String × WrapPolicy)

instance : DecidableEq PStore := by
  unfold PStore
  infer_instance

/-- Model of `policy.PolicyDelta_Action`: ADD, DELETE, or any other (unsupported)
action value. -/
inductive DeltaAction : Type where
  | add
  | delete
  | unspecified
deriving DecidableEq

/-- Model of `ensurePolicy` (policyresolver.go): fetch the wrapper; if absent and
`createIfMissing`, synthesize and store an asset policy.
`ensureAsset` is not among the given source files; modelled from the spec:
"if absent and createIfMissing, synthesize an asset policy with one empty
group" (with empty parent/child sets and no properties). -/
def ensurePolicy (db : PStore) (mrn : String) (createIfMissing : Bool) :
    Option (PStore × WrapPolicy) :=
  match lookupA db mrn with
  | some w => some (db, w)
  | none =>
    if createIfMissing then
      some (setA db mrn ⟨[[]], [], [], []⟩, (⟨[[]], [], [], []⟩ : WrapPolicy))
    else none

/-- The two mirrored writes of the ADD branch of `MutatePolicy`:
`policyw.children[policyMrn] = struct{}{}` and
`childw.parents[targetMRN] = struct{}{}` (the latter persisted via
`cache.Set`). -/
def addEdge (db : PStore) (target mrn : String) : PStore :=
  updA (updA db target (fun n => { n with children := n.children.insert mrn })) mrn
    (fun n => { n with parents := n.parents.insert target })

/-- The two mirrored deletes of the DELETE branch of `MutatePolicy`. -/
def removeEdge (db : PStore) (target mrn : String) : PStore :=
  updA (updA db target (fun n => { n with children := n.children.filter (fun x => x ≠ mrn) }))
    mrn (fun n => { n with parents := n.parents.filter (fun x => x ≠ target) })

/-- The `for policyMrn, delta := range mutation.PolicyDeltas` loop of
`MutatePolicy`. `idx` is the `policies` map (as the list of its keys),
`changed` the `changed` flag. Errors (missing child, unsupported action) are
`none`. -/
def applyDeltas : PStore → String → List String → Bool →
    List (String × DeltaAction) → Option (PStore × List String × Bool)
  | db, _, idx, changed, [] => some (db, idx, changed)
  | db, target, idx, changed, (mrn, act) :: rest =>
    match act with
    | .add =>
      if mrn ∈ idx then applyDeltas db target idx changed rest
      else
        match lookupA db mrn with
        | none => none
        | some _ => applyDeltas (addEdge db target mrn) target (mrn :: idx) true rest
    | .delete =>
      match lookupA db mrn with
      | none => none
      | some _ =>
        applyDeltas (removeEdge db target mrn) target (idx.filter (fun x => x ≠ mrn)) true rest
    | .unspecified => none

/-- The MRNs of the policies a policy depends on (its groups'
`Policies` refs). `Policy.DependentPolicyMrns` lives in the policy package
outside the given source files; modelled from the spec: the sub-policy
references of every group. -/
def depMrns (w : WrapPolicy) : List String :=
  w.groups.flatten

/-- Model of `refreshAssetFilters` (policyresolver.go), reduced to its effect on the
modelled state: it recomputes `policyObj.Filters` (not modelled) and fails
iff a dependent policy cannot be loaded. The `cache.Set` it performs writes
the same modelled fields back. -/
def refreshFiltersOk (db : PStore) (mrn : String) : Bool :=
  match lookupA db mrn with
  | none => false
  | some w => (depMrns w).all (fun d => (lookupA db d).isSome)

/-- Model of `refreshDependentAssetFilters` (policyresolver.go): walk ancestors via
`parents`, refreshing filters and checksums of each (neither is part of the
modelled state). The walk fails when an ancestor or one of its dependencies
or parents is missing; the Go loop can also diverge on a cyclic parent graph,
which is modelled as running out of fuel (`none`). -/
def refreshDeps : Nat → PStore → List String → Option Unit
  | _, _, [] => some ()
  | 0, _, _ :: _ => none
  | n + 1, db, k :: rest =>
    if refreshFiltersOk db k then
      match lookupA db k with
      | none => none
      | some w =>
        if w.parents.all (fun p => (lookupA db p).isSome) then
          refreshDeps n db
            ((w.parents.foldl (fun acc p => if p ∈ acc then acc else acc ++ [p]) rest).filter
              (fun x => x ≠ k))
        else none
    else none

/-- Model of `MutatePolicy` (policyresolver.go). Returns the new cache state and the
returned target wrapper, or `none` on error. The checksum recomputation
(`InvalidateExecutionChecksums` / `UpdateChecksums`) and
`checkAndInvalidatePolicyBundle` alter no modelled state and are modelled as
succeeding. -/
def mutatePolicy (db : PStore) (targetMrn : String)
    (deltas : List (String × DeltaAction)) (createIfMissing : Bool) :
    Option (PStore × WrapPolicy) :=
  match ensurePolicy db targetMrn createIfMissing with
  | none => none
  | some (db1, w) =>
    match w.groups with
    | [] => none
    | g :: _ =>
      match applyDeltas db1 targetMrn g.dedup false deltas with
      | none => none
      | some (db2, idx, changed) =>
        if changed then
          let db3 := updA db2 targetMrn
            (fun n => { n with groups := idx :: n.groups.drop 1 })
          if refreshFiltersOk db3 targetMrn then
            match lookupA db3 targetMrn with
            | none => none
            | some w' =>
              match refreshDeps (db3.length * db3.length + 1) db3 w'.parents with
              | none => none
              | some _ => some (db3, w')
          else none
        else some (db2, w)

/-- One `MutatePolicy` call: the deltas backing `Assign` / `Unassign`. -/
structure MutOp : Type where
  target : String
  deltas : List (String × DeltaAction)
  createIfMissing : Bool

/-- A sequence of `MutatePolicy` operations, failing as soon as one fails. -/
def runMutations : List MutOp → PStore → Option PStore
  | [], db => some db
  | op :: ops, db =>
    match mutatePolicy db op.target op.deltas op.createIfMissing with
    | none => none
    | some (db', _) => runMutations ops db'

/-- Model of `explorer.PropsReq` (external package): entity MRN plus properties. -/
structure PropsReq : Type where
  entityMrn : String
  props : List SProp

/-- The pointer write `x.Mql = cur.Mql` of `SetProps` as seen through a props
slice holding the pointed-to property at position `i` (no-op if `i` is out of
range, which never happens for indices produced by `buildPropsIdx` /
`setPropsGo`). -/
def setMqlAt (l : List SProp) (i : Nat) (m : String) : List SProp :=
  match l[i]? with
  | some p => l.set i { p with mql := m }
  | none => l

/-- The `propsIdx` construction loop of `SetProps` (policyresolver.go): index
every property of the wrapper under its MRN and under its UID (each when
non-empty). The values are positions into the wrapper's props slice, modelling
the `*explorer.Property` pointers the Go map holds; a later property shadows
an earlier one under the same key (Go map assignment, modelled by `setA`).
`i` is the position of the head of `ps` in the wrapper's props. -/
def buildPropsIdx (i : Nat) (ps : List SProp) (idx : List (String × (Nat ⊕ Nat))) :
    List (String × (Nat ⊕ Nat)) :=
  match ps with
  | [] => idx
  | p :: rest =>
    buildPropsIdx (i + 1) rest
      (if p.uid = "" then (if p.mrn = "" then idx else setA idx p.mrn (.inl i))
       else setA (if p.mrn = "" then idx else setA idx p.mrn (.inl i)) p.uid (.inl i))

/-- The `for i := range req.Props` loop of `SetProps` (policyresolver.go).
`stored` is the wrapper's props slice as the cache sees it (its properties are
pointers shared between the cached wrapper and the local copy, so
`x.Mql = cur.Mql` on a `.inl` index is cache-visible), `extra` the locally
appended properties (`policyw.Props = append(...)` only changes the local
slice header, so a `.inr` mutation never reaches the cache), `idx` the
`propsIdx` map, extended by `propsIdx[id] = cur` on every append. Returns the
cache-visible props after the loop; `none` is the "cannot set property
without MRN" error (in the program the pointer writes made before an error do
survive it; the model drops that state since the claim concerns successful
calls only). -/
def setPropsGo (reqs : List SProp) (stored extra : List SProp)
    (idx : List (String × (Nat ⊕ Nat))) : Option (List SProp) :=
  match reqs with
  | [] => some stored
  | cur :: rest =>
    if (if cur.mrn = "" then cur.uid else cur.mrn) = "" then none
    else
      match lookupA idx (if cur.mrn = "" then cur.uid else cur.mrn) with
      | some (.inl i) => setPropsGo rest (setMqlAt stored i cur.mql) extra idx
      | some (.inr j) => setPropsGo rest stored (setMqlAt extra j cur.mql) idx
      | none =>
        setPropsGo rest stored (extra ++ [cur])
          (setA idx (if cur.mrn = "" then cur.uid else cur.mrn) (.inr extra.length))

/-- Model of `SetProps` (policyresolver.go): loads the entity's policy wrapper
(`createIfMissing = false`), builds `propsIdx` over its cache-shared
properties, then walks the request's properties: a property matched in the
index gets its `Mql` overwritten in place — a write through a shared
`*explorer.Property` pointer that is visible in the cached wrapper without
any `cache.Set` (modelled, like the shared-map writes of `MutatePolicy`, as
an in-place store update `updA`) — while an unmatched property is appended
only to the local wrapper copy and never reaches the cache. The function
performs no `cache.Set` (the final comment in the source says "since we only
altered an existing policy, we don't need to set it again"): no store key is
added, removed, or wholesale replaced. The errors are a missing entity policy
and a property with neither MRN nor UID. -/
def SetProps (db : PStore) (req : PropsReq) : Option PStore :=
  match ensurePolicy db req.entityMrn false with
  | none => none
  | some (db1, w) =>
    match setPropsGo req.props w.props [] (buildPropsIdx 0 w.props []) with
    | none => none
    | some stored' =>
      some (updA db1 req.entityMrn (fun w0 => { w0 with props := stored' }))

/-! ## Claim C1: edge symmetry -/

/-- Invariant I1: for every pair of stored policy wrappers `(a, b)`,
`b ∈ a.children ↔ a ∈ b.parents`. -/
def EdgeSym (db : PStore) : Prop :=
  ∀ a b wa wb, lookupA db a = some wa → lookupA db b = some wb →
    (b ∈ wa.children ↔ a ∈ wb.parents)

/-- Auxiliary invariant: every MRN referenced from a stored wrapper's
`parents` or `children` set is itself stored. It holds of the empty store and
is preserved by `MutatePolicy` together with `EdgeSym`. -/
def EdgeClosed (db : PStore) : Prop :=
  ∀ a wa, lookupA db a = some wa →
    (∀ m ∈ wa.children, (lookupA db m).isSome = true) ∧
    (∀ m ∈ wa.parents, (lookupA db m).isSome = true)

theorem mem_filter_ne {l : List String} {x t : String} :
    x ∈ l.filter (fun y => y ≠ t) ↔ x ∈ l ∧ x ≠ t := by
  simp [List.mem_filter]

/-- How `addEdge` transforms each stored wrapper. -/
def addAdj (t c x : String) (w : WrapPolicy) : WrapPolicy :=
  { w with
    parents := if x = c then w.parents.insert t else w.parents
    children := if x = t then w.children.insert c else w.children }

@[simp] theorem addAdj_groups (t c x : String) (w : WrapPolicy) :
    (addAdj t c x w).groups = w.groups := rfl

@[simp] theorem addAdj_parents (t c x : String) (w : WrapPolicy) :
    (addAdj t c x w).parents = if x = c then w.parents.insert t else w.parents := rfl

@[simp] theorem addAdj_children (t c x : String) (w : WrapPolicy) :
    (addAdj t c x w).children = if x = t then w.children.insert c else w.children := rfl

/-- How `removeEdge` transforms each stored wrapper. -/
def removeAdj (t c x : String) (w : WrapPolicy) : WrapPolicy :=
  { w with
    parents := if x = c then w.parents.filter (fun y => y ≠ t) else w.parents
    children := if x = t then w.children.filter (fun y => y ≠ c) else w.children }

@[simp] theorem removeAdj_parents (t c x : String) (w : WrapPolicy) :
    (removeAdj t c x w).parents =
      if x = c then w.parents.filter (fun y => y ≠ t) else w.parents := rfl

@[simp] theorem removeAdj_children (t c x : String) (w : WrapPolicy) :
    (removeAdj t c x w).children =
      if x = t then w.children.filter (fun y => y ≠ c) else w.children := rfl

theorem addEdge_lookup (db : PStore) (t c x : String) :
    lookupA (addEdge db t c) x = (lookupA db x).map (addAdj t c x) := by
  unfold addEdge addAdj
  rw [lookupA_updA, lookupA_updA]
  by_cases hc : x = c
  · subst hc
    by_cases ht : x = t
    · subst ht
      cases h : lookupA db x <;> simp
    · cases h : lookupA db x <;> simp [ht]
  · by_cases ht : x = t
    · subst ht
      cases h : lookupA db x <;> simp [hc]
    · cases h : lookupA db x <;> simp [hc, ht]

theorem removeEdge_lookup (db : PStore) (t c x : String) :
    lookupA (removeEdge db t c) x = (lookupA db x).map (removeAdj t c x) := by
  unfold removeEdge removeAdj
  rw [lookupA_updA, lookupA_updA]
  by_cases hc : x = c
  · subst hc
    by_cases ht : x = t
    · subst ht
      cases h : lookupA db x <;> simp
    · cases h : lookupA db x <;> simp [ht]
  · by_cases ht : x = t
    · subst ht
      cases h : lookupA db x <;> simp [hc]
    · cases h : lookupA db x <;> simp [hc, ht]

theorem addEdge_isSome (db : PStore) (t c x : String) :
    (lookupA (addEdge db t c) x).isSome = (lookupA db x).isSome := by
  rw [addEdge_lookup]
  cases lookupA db x <;> simp

theorem removeEdge_isSome (db : PStore) (t c x : String) :
    (lookupA (removeEdge db t c) x).isSome = (lookupA db x).isSome := by
  rw [removeEdge_lookup]
  cases lookupA db x <;> simp

theorem EdgeInv_addEdge {db : PStore} {t c : String}
    (hsym : EdgeSym db) (hclosed : EdgeClosed db)
    (ht : (lookupA db t).isSome = true) (hc : (lookupA db c).isSome = true) :
    EdgeSym (addEdge db t c) ∧ EdgeClosed (addEdge db t c) := by
  constructor
  · intro a b wa wb ha hb
    rw [addEdge_lookup] at ha hb
    obtain ⟨wa0, ha0, rfl⟩ := Option.map_eq_some'.mp ha
    obtain ⟨wb0, hb0, rfl⟩ := Option.map_eq_some'.mp hb
    have base := hsym a b wa0 wb0 ha0 hb0
    simp only [addAdj_children, addAdj_parents]
    by_cases hat : a = t
    · subst hat
      by_cases hbc : b = c
      · subst hbc
        simp
      · simp [hbc, List.mem_insert_iff, base]
    · by_cases hbc : b = c
      · subst hbc
        simp [hat, List.mem_insert_iff, base]
      · simp [hat, hbc, base]
  · intro a wa ha
    rw [addEdge_lookup] at ha
    obtain ⟨wa0, ha0, rfl⟩ := Option.map_eq_some'.mp ha
    have base := hclosed a wa0 ha0
    constructor
    · intro m hm
      rw [addEdge_isSome]
      simp only [addAdj_children] at hm
      by_cases hat : a = t
      · rw [if_pos hat] at hm
        rcases List.mem_insert_iff.mp hm with rfl | hm'
        · exact hc
        · exact base.1 m hm'
      · rw [if_neg hat] at hm
        exact base.1 m hm
    · intro m hm
      rw [addEdge_isSome]
      simp only [addAdj_parents] at hm
      by_cases hac : a = c
      · rw [if_pos hac] at hm
        rcases List.mem_insert_iff.mp hm with rfl | hm'
        · exact ht
        · exact base.2 m hm'
      · rw [if_neg hac] at hm
        exact base.2 m hm

theorem EdgeInv_removeEdge {db : PStore} {t c : String}
    (hsym : EdgeSym db) (hclosed : EdgeClosed db) :
    EdgeSym (removeEdge db t c) ∧ EdgeClosed (removeEdge db t c) := by
  constructor
  · intro a b wa wb ha hb
    rw [removeEdge_lookup] at ha hb
    obtain ⟨wa0, ha0, rfl⟩ := Option.map_eq_some'.mp ha
    obtain ⟨wb0, hb0, rfl⟩ := Option.map_eq_some'.mp hb
    have base := hsym a b wa0 wb0 ha0 hb0
    simp only [removeAdj_children, removeAdj_parents]
    by_cases hat : a = t
    · subst hat
      by_cases hbc : b = c
      · subst hbc
        simp
      · simp [hbc, mem_filter_ne, base]
    · by_cases hbc : b = c
      · subst hbc
        simp [hat, mem_filter_ne, base]
      · simp [hat, hbc, base]
  · intro a wa ha
    rw [removeEdge_lookup] at ha
    obtain ⟨wa0, ha0, rfl⟩ := Option.map_eq_some'.mp ha
    have base := hclosed a wa0 ha0
    constructor
    · intro m hm
      rw [removeEdge_isSome]
      simp only [removeAdj_children] at hm
      by_cases hat : a = t
      · rw [if_pos hat] at hm
        exact base.1 m (mem_filter_ne.mp hm).1
      · rw [if_neg hat] at hm
        exact base.1 m hm
    · intro m hm
      rw [removeEdge_isSome]
      simp only [removeAdj_parents] at hm
      by_cases hac : a = c
      · rw [if_pos hac] at hm
        exact base.2 m (mem_filter_ne.mp hm).1
      · rw [if_neg hac] at hm
        exact base.2 m hm

theorem EdgeInv_setA_fresh {db : PStore} {k : String} {w : WrapPolicy}
    (hsym : EdgeSym db) (hclosed : EdgeClosed db)
    (hk : lookupA db k = none) (hpar : w.parents = []) (hch : w.children = []) :
    EdgeSym (setA db k w) ∧ EdgeClosed (setA db k w) := by
  constructor
  · intro a b wa wb ha hb
    rw [lookupA_setA] at ha hb
    by_cases hak : a = k <;> by_cases hbk : b = k
    · rw [if_pos hak] at ha
      rw [if_pos hbk] at hb
      cases ha
      cases hb
      simp [hpar, hch]
    · rw [if_pos hak] at ha
      rw [if_neg hbk] at hb
      cases ha
      constructor
      · intro hmem
        rw [hch] at hmem
        exact absurd hmem (List.not_mem_nil b)
      · intro hmem
        have := (hclosed b wb hb).2 a hmem
        rw [hak, hk] at this
        simp at this
    · rw [if_neg hak] at ha
      rw [if_pos hbk] at hb
      cases hb
      constructor
      · intro hmem
        have := (hclosed a wa ha).1 b hmem
        rw [hbk, hk] at this
        simp at this
      · intro hmem
        rw [hpar] at hmem
        exact absurd hmem (List.not_mem_nil a)
    · rw [if_neg hak] at ha
      rw [if_neg hbk] at hb
      exact hsym a b wa wb ha hb
  · intro a wa ha
    rw [lookupA_setA] at ha
    by_cases hak : a = k
    · rw [if_pos hak] at ha
      cases ha
      constructor
      · intro m hm
        rw [hch] at hm
        exact absurd hm (List.not_mem_nil m)
      · intro m hm
        rw [hpar] at hm
        exact absurd hm (List.not_mem_nil m)
    · rw [if_neg hak] at ha
      have base := hclosed a wa ha
      constructor
      · intro m hm
        rw [lookupA_setA]
        by_cases hmk : m = k
        · rw [if_pos hmk]
          rfl
        · rw [if_neg hmk]
          exact base.1 m hm
      · intro m hm
        rw [lookupA_setA]
        by_cases hmk : m = k
        · rw [if_pos hmk]
          rfl
        · rw [if_neg hmk]
          exact base.2 m hm

theorem updA_isSome (db : PStore) (k x : String) (f : WrapPolicy → WrapPolicy) :
    (lookupA (updA db k f) x).isSome = (lookupA db x).isSome := by
  rw [lookupA_updA]
  by_cases hx : x = k
  · rw [if_pos hx]
    cases lookupA db x <;> simp
  · rw [if_neg hx]

theorem EdgeInv_updA {db : PStore} {k : String} {f : WrapPolicy → WrapPolicy}
    (hsym : EdgeSym db) (hclosed : EdgeClosed db)
    (hf : ∀ w, (f w).parents = w.parents ∧ (f w).children = w.children) :
    EdgeSym (updA db k f) ∧ EdgeClosed (updA db k f) := by
  have hlook : ∀ x wx, lookupA (updA db k f) x = some wx →
      ∃ w0, lookupA db x = some w0 ∧ wx.parents = w0.parents ∧ wx.children = w0.children := by
    intro x wx hx
    rw [lookupA_updA] at hx
    by_cases hxk : x = k
    · rw [if_pos hxk] at hx
      obtain ⟨w0, hw0, rfl⟩ := Option.map_eq_some'.mp hx
      exact ⟨w0, hw0, (hf w0).1, (hf w0).2⟩
    · rw [if_neg hxk] at hx
      exact ⟨wx, hx, rfl, rfl⟩
  constructor
  · intro a b wa wb ha hb
    obtain ⟨wa0, ha0, hap, hac⟩ := hlook a wa ha
    obtain ⟨wb0, hb0, hbp, hbc⟩ := hlook b wb hb
    rw [hac, hbp]
    exact hsym a b wa0 wb0 ha0 hb0
  · intro a wa ha
    obtain ⟨wa0, ha0, hap, hac⟩ := hlook a wa ha
    have base := hclosed a wa0 ha0
    constructor
    · intro m hm
      rw [updA_isSome]
      exact base.1 m (hac ▸ hm)
    · intro m hm
      rw [updA_isSome]
      exact base.2 m (hap ▸ hm)

theorem applyDeltas_EdgeInv :
    ∀ (deltas : List (String × DeltaAction)) (db : PStore) (target : String)
      (idx : List String) (changed : Bool) (db' : PStore) (idx' : List String) (ch' : Bool),
      EdgeSym db → EdgeClosed db → (lookupA db target).isSome = true →
      applyDeltas db target idx changed deltas = some (db', idx', ch') →
      (EdgeSym db' ∧ EdgeClosed db') ∧ (lookupA db' target).isSome = true := by
  intro deltas
  induction deltas with
  | nil =>
    intro db target idx changed db' idx' ch' hsym hclosed ht happ
    simp only [applyDeltas, Option.some_inj] at happ
    obtain ⟨rfl, rfl, rfl⟩ := happ
    exact ⟨⟨hsym, hclosed⟩, ht⟩
  | cons d rest ih =>
    intro db target idx changed db' idx' ch' hsym hclosed ht happ
    obtain ⟨mrn, act⟩ := d
    cases act with
    | add =>
      by_cases hm : mrn ∈ idx
      · simp only [applyDeltas, if_pos hm] at happ
        exact ih db target idx changed db' idx' ch' hsym hclosed ht happ
      · cases hc : lookupA db mrn with
        | none => simp [applyDeltas, hm, hc] at happ
        | some w =>
          simp only [applyDeltas, if_neg hm, hc] at happ
          have hinv := EdgeInv_addEdge hsym hclosed ht (by rw [hc]; rfl)
          have ht' : (lookupA (addEdge db target mrn) target).isSome = true := by
            rw [addEdge_isSome]
            exact ht
          exact ih _ _ _ _ _ _ _ hinv.1 hinv.2 ht' happ
    | delete =>
      cases hc : lookupA db mrn with
      | none => simp [applyDeltas, hc] at happ
      | some w =>
        simp only [applyDeltas, hc] at happ
        have hinv := EdgeInv_removeEdge hsym hclosed (t := target) (c := mrn)
        have ht' : (lookupA (removeEdge db target mrn) target).isSome = true := by
          rw [removeEdge_isSome]
          exact ht
        exact ih _ _ _ _ _ _ _ hinv.1 hinv.2 ht' happ
    | unspecified => simp [applyDeltas] at happ

theorem ensurePolicy_EdgeInv {db : PStore} {mrn : String} {cif : Bool}
    {db1 : PStore} {w : WrapPolicy}
    (hsym : EdgeSym db) (hclosed : EdgeClosed db)
    (he : ensurePolicy db mrn cif = some (db1, w)) :
    (EdgeSym db1 ∧ EdgeClosed db1) ∧ (lookupA db1 mrn).isSome = true := by
  unfold ensurePolicy at he
  cases hl : lookupA db mrn with
  | some w0 =>
    rw [hl] at he
    simp only [Option.some_inj, Prod.mk.injEq] at he
    obtain ⟨rfl, rfl⟩ := he
    exact ⟨⟨hsym, hclosed⟩, by rw [hl]; rfl⟩
  | none =>
    rw [hl] at he
    cases cif with
    | false => simp at he
    | true =>
      simp only [if_true, Option.some_inj, Prod.mk.injEq] at he
      obtain ⟨rfl, rfl⟩ := he
      refine ⟨EdgeInv_setA_fresh hsym hclosed hl rfl rfl, ?_⟩
      rw [lookupA_setA, if_pos rfl]
      rfl

theorem mutatePolicy_EdgeInv {db : PStore} {target : String}
    {deltas : List (String × DeltaAction)} {cif : Bool}
    {db' : PStore} {w' : WrapPolicy}
    (hsym : EdgeSym db) (hclosed : EdgeClosed db)
    (hm : mutatePolicy db target deltas cif = some (db', w')) :
    EdgeSym db' ∧ EdgeClosed db' := by
  unfold mutatePolicy at hm
  split at hm
  · cases hm
  next db1 w he =>
    have h1 := ensurePolicy_EdgeInv hsym hclosed he
    split at hm
    · cases hm
    next g gs hgr =>
      split at hm
      · cases hm
      next db2 idx changed ha =>
        have h2 := applyDeltas_EdgeInv deltas db1 target g.dedup false db2 idx changed
          h1.1.1 h1.1.2 h1.2 ha
        have h3 := @EdgeInv_updA db2 target
          (fun n => { n with groups := idx :: n.groups.drop 1 })
          h2.1.1 h2.1.2 (fun w0 => ⟨rfl, rfl⟩)
        split at hm
        · simp only [] at hm
          split at hm
          · split at hm
            · cases hm
            next w2 hl =>
              split at hm
              · cases hm
              next u hu =>
                simp only [Option.some_inj, Prod.mk.injEq] at hm
                obtain ⟨rfl, rfl⟩ := hm
                exact h3
          · cases hm
        · simp only [Option.some_inj, Prod.mk.injEq] at hm
          obtain ⟨rfl, rfl⟩ := hm
          exact h2.1

/-- Lemma: `runMutations` preserves the edge invariants. -/
theorem runMutations_EdgeInv :
    ∀ (ops : List MutOp) (db db' : PStore),
      EdgeSym db → EdgeClosed db → runMutations ops db = some db' →
      EdgeSym db' ∧ EdgeClosed db' := by
  intro ops
  induction ops with
  | nil =>
    intro db db' hsym hclosed hrun
    simp only [runMutations, Option.some_inj] at hrun
    subst hrun
    exact ⟨hsym, hclosed⟩
  | cons op rest ih =>
    intro db db' hsym hclosed hrun
    simp only [runMutations] at hrun
    cases hm : mutatePolicy db op.target op.deltas op.createIfMissing with
    | none => rw [hm] at hrun; cases hrun
    | some pr =>
      obtain ⟨db1, w⟩ := pr
      rw [hm] at hrun
      have h1 := mutatePolicy_EdgeInv hsym hclosed hm
      exact ih db1 db' h1.1 h1.2 hrun

/-- Claim C1 — Edge symmetry invariant: after any sequence of successful
`MutatePolicy` operations (the ADD/DELETE deltas backing Assign/Unassign)
starting from a store satisfying the edge invariants (e.g. the empty store),
for every pair of stored policy wrappers `(a, b)`, `b` is in `a.children` if
and only if `a` is in `b.parents`. -/
theorem mutatePolicy_edge_symmetry (ops : List MutOp) (db0 db' : PStore)
    (hsym : EdgeSym db0) (hclosed : EdgeClosed db0)
    (hrun : runMutations ops db0 = some db') :
    EdgeSym db' :=
  (runMutations_EdgeInv ops db0 db' hsym hclosed hrun).1

/-- Witness for C1: create two asset policies and assign one to the other;
the resulting store satisfies edge symmetry. -/
theorem mutatePolicy_edge_symmetry_witness :
    runMutations
      [⟨"//assets/x", [], true⟩, ⟨"//assets/y", [], true⟩,
        ⟨"//assets/x", [("//assets/y", DeltaAction.add)], false⟩] [] =
      some [("//assets/y", ⟨[[]], [], ["//assets/x"], []⟩),
        ("//assets/x", ⟨[["//assets/y"]], [], [], ["//assets/y"]⟩)] ∧
    EdgeSym [("//assets/y", ⟨[[]], [], ["//assets/x"], []⟩),
      ("//assets/x", ⟨[["//assets/y"]], [], [], ["//assets/y"]⟩)] := by
  constructor
  · decide
  · exact mutatePolicy_edge_symmetry
      [⟨"//assets/x", [], true⟩, ⟨"//assets/y", [], true⟩,
        ⟨"//assets/x", [("//assets/y", DeltaAction.add)], false⟩] []
      [("//assets/y", ⟨[[]], [], ["//assets/x"], []⟩),
        ("//assets/x", ⟨[["//assets/y"]], [], [], ["//assets/y"]⟩)]
      (fun a b wa wb ha _hb => by simp [lookupA] at ha)
      (fun a wa ha => by simp [lookupA] at ha)
      (by decide)

/-! ## Claim C7: MutatePolicy ADD idempotence -/

theorem applyDeltas_all_present :
    ∀ (deltas : List (String × DeltaAction)) (db : PStore) (target : String)
      (idx : List String) (changed : Bool),
      (∀ p ∈ deltas, p.2 = DeltaAction.add ∧ p.1 ∈ idx) →
      applyDeltas db target idx changed deltas = some (db, idx, changed) := by
  intro deltas
  induction deltas with
  | nil =>
    intro db target idx changed _
    rfl
  | cons d rest ih =>
    intro db target idx changed h
    obtain ⟨mrn, act⟩ := d
    obtain ⟨hact, hmem⟩ := h (mrn, act) (List.mem_cons_self _ _)
    cases act with
    | add =>
      simp only [applyDeltas]
      rw [if_pos hmem]
      exact ih db target idx changed (fun p hp => h p (List.mem_cons_of_mem _ hp))
    | delete => cases hact
    | unspecified => cases hact

/-- Claim C7 — MutatePolicy ADD idempotence: for every target policy whose first
group already contains all policy MRNs named by a delta map consisting only of
ADD actions, `MutatePolicy` returns the target policy unchanged — the store is
returned exactly as it was (no parent/child set modified, nothing written
back), and the early return precedes the filter refresh and checksum
recomputation in the embedded control flow. -/
theorem mutatePolicy_add_idempotent (db : PStore) (target : String)
    (deltas : List (String × DeltaAction)) (cif : Bool) (w : WrapPolicy)
    (g : List String) (gs : List (List String))
    (hw : lookupA db target = some w)
    (hg : w.groups = g :: gs)
    (hdeltas : ∀ p ∈ deltas, p.2 = DeltaAction.add ∧ p.1 ∈ g) :
    mutatePolicy db target deltas cif = some (db, w) := by
  have hens : ensurePolicy db target cif = some (db, w) := by
    unfold ensurePolicy
    rw [hw]
  have happ : applyDeltas db target g.dedup false deltas = some (db, g.dedup, false) :=
    applyDeltas_all_present deltas db target g.dedup false
      (fun p hp => ⟨(hdeltas p hp).1, List.mem_dedup.mpr (hdeltas p hp).2⟩)
  simp [mutatePolicy, hens, hg, happ]

/-- Witness for C7: a target whose sole group already references the added
policy; the call is a no-op returning the stored wrapper. -/
theorem mutatePolicy_add_idempotent_witness :
    mutatePolicy [("//policies/t", ⟨[["//policies/a"]], [], [], []⟩)] "//policies/t"
      [("//policies/a", DeltaAction.add)] false =
      some ([("//policies/t", ⟨[["//policies/a"]], [], [], []⟩)],
        (⟨[["//policies/a"]], [], [], []⟩ : WrapPolicy)) :=
  mutatePolicy_add_idempotent
    [("//policies/t", ⟨[["//policies/a"]], [], [], []⟩)] "//policies/t"
    [("//policies/a", DeltaAction.add)] false
    ⟨[["//policies/a"]], [], [], []⟩ ["//policies/a"] []
    (by decide) rfl (by decide)

/-! ## Claim C9: SetProps does not write back -/

theorem set_self_of_getElem {α : Type} (l : List α) (i : Nat) (a : α)
    (h : l[i]? = some a) : l.set i a = l := by
  induction l generalizing i with
  | nil => simp at h
  | cons x xs ih =>
    cases i with
    | zero =>
      simp only [List.getElem?_cons_zero, Option.some_inj] at h
      subst h; rfl
    | succ j =>
      simp only [List.getElem?_cons_succ] at h
      simp [List.set_cons_succ, ih j h]

/-- An in-place `Mql` overwrite changes neither the MRNs nor the UIDs of a
props slice. -/
theorem setMqlAt_map (l : List SProp) (i : Nat) (m : String) :
    (setMqlAt l i m).map SProp.mrn = l.map SProp.mrn ∧
    (setMqlAt l i m).map SProp.uid = l.map SProp.uid := by
  unfold setMqlAt
  cases hx : l[i]? with
  | none => exact ⟨rfl, rfl⟩
  | some p =>
    constructor
    · rw [List.map_set]
      exact set_self_of_getElem _ i p.mrn (by rw [List.getElem?_map, hx]; rfl)
    · rw [List.map_set]
      exact set_self_of_getElem _ i p.uid (by rw [List.getElem?_map, hx]; rfl)

/-- The `SetProps` loop keeps the stored (cache-visible) props' MRNs and UIDs
unchanged: only `Mql` fields are mutated in place, and appended properties go
to the local `extra` list, never into `stored`. -/
theorem setPropsGo_stored (reqs : List SProp) (stored extra : List SProp)
    (idx : List (String × (Nat ⊕ Nat))) (ps : List SProp)
    (h : setPropsGo reqs stored extra idx = some ps) :
    ps.map SProp.mrn = stored.map SProp.mrn ∧
    ps.map SProp.uid = stored.map SProp.uid := by
  induction reqs generalizing stored extra idx with
  | nil =>
    simp only [setPropsGo, Option.some_inj] at h
    subst h
    exact ⟨rfl, rfl⟩
  | cons cur rest ih =>
    simp only [setPropsGo] at h
    generalize (if cur.mrn = "" then cur.uid else cur.mrn) = id at h
    split at h
    · cases h
    · split at h
      next i hl =>
        have h2 := ih _ _ _ h
        have h3 := setMqlAt_map stored i cur.mql
        exact ⟨h2.1.trans h3.1, h2.2.trans h3.2⟩
      next j hl => exact ih _ _ _ h
      next hl => exact ih _ _ _ h

/-- Claim C9 counterexample — The claim "a successful SetProps call performs
no cache write, so the policy wrapper stored in the datalake is not written
back after the property mutation" is false in its conclusion that the stored
wrapper is unaffected: `x.Mql = cur.Mql` (policyresolver.go) writes through a
`*explorer.Property` pointer shared with the cached wrapper, so the
datalake-visible policy does change without any `cache.Set`. Overriding the
existing property `//props/x` makes a subsequent read of the stored wrapper
return the new Mql, not the old one. -/
theorem SetProps_mql_leak_cex :
    SetProps [("//policies/p", ⟨[[]], [⟨"//props/x", "", "old mql"⟩], [], []⟩)]
      ⟨"//policies/p", [⟨"//props/x", "", "new mql"⟩]⟩ =
      some [("//policies/p", ⟨[[]], [⟨"//props/x", "", "new mql"⟩], [], []⟩)] ∧
    lookupA [("//policies/p",
        (⟨[[]], [⟨"//props/x", "", "new mql"⟩], [], []⟩ : WrapPolicy))] "//policies/p" ≠
      lookupA [("//policies/p",
        (⟨[[]], [⟨"//props/x", "", "old mql"⟩], [], []⟩ : WrapPolicy))] "//policies/p" := by
  decide

/-- Claim C9 amended — SetProps performs no write-back, but in-place property
mutations leak into the datalake: for every existing entity policy, a
successful `SetProps` call performs no `cache.Set` — the resulting store is an
in-place update (`updA`) of the entity's stored wrapper: no entry is added or
removed, every other key reads unchanged, and the entity's stored props keep
exactly their MRNs and UIDs (in particular, newly appended request properties
are never persisted) — but the `Mql` overwrites of matched existing
properties are visible in the stored wrapper through the shared property
pointers, so the stored policy is not left unchanged. -/
theorem SetProps_no_writeback (db : PStore) (req : PropsReq) (db' : PStore)
    (w : WrapPolicy) (hw : lookupA db req.entityMrn = some w)
    (h : SetProps db req = some db') :
    ∃ ps, db' = updA db req.entityMrn (fun w0 => { w0 with props := ps }) ∧
      ps.map SProp.mrn = w.props.map SProp.mrn ∧
      ps.map SProp.uid = w.props.map SProp.uid ∧
      (∀ x, x ≠ req.entityMrn → lookupA db' x = lookupA db x) := by
  unfold SetProps at h
  rw [show ensurePolicy db req.entityMrn false = some (db, w) by
    unfold ensurePolicy; rw [hw]] at h
  split at h
  · cases h
  next db1 w1 hgo =>
    simp only [Option.some_inj, Prod.mk.injEq] at hgo
    obtain ⟨rfl, rfl⟩ := hgo
    split at h
    · cases h
    next ps hgo2 =>
      simp only [Option.some_inj] at h
      subst h
      have h2 := setPropsGo_stored _ _ _ _ _ hgo2
      refine ⟨ps, rfl, h2.1, h2.2, ?_⟩
      intro x hx
      rw [lookupA_updA, if_neg hx]

/-- Witness for the amended C9 at a concrete input: overriding an existing
property's Mql yields exactly the in-place update of the stored wrapper. -/
theorem SetProps_no_writeback_witness :
    ∃ ps,
      [("//policies/p", (⟨[[]], [⟨"//props/x", "", "new mql"⟩], [], []⟩ : WrapPolicy))] =
        updA [("//policies/p", ⟨[[]], [⟨"//props/x", "", "old mql"⟩], [], []⟩)]
          "//policies/p" (fun w0 => { w0 with props := ps }) ∧
      ps.map SProp.mrn =
        ([⟨"//props/x", "", "old mql"⟩] : List SProp).map SProp.mrn ∧
      ps.map SProp.uid =
        ([⟨"//props/x", "", "old mql"⟩] : List SProp).map SProp.uid ∧
      (∀ x, x ≠ "//policies/p" →
        lookupA [("//policies/p",
            (⟨[[]], [⟨"//props/x", "", "new mql"⟩], [], []⟩ : WrapPolicy))] x =
        lookupA [("//policies/p",
            (⟨[[]], [⟨"//props/x", "", "old mql"⟩], [], []⟩ : WrapPolicy))] x) :=
  SetProps_no_writeback
    [("//policies/p", ⟨[[]], [⟨"//props/x", "", "old mql"⟩], [], []⟩)]
    ⟨"//policies/p", [⟨"//props/x", "", "new mql"⟩]⟩
    [("//policies/p", ⟨[[]], [⟨"//props/x", "", "new mql"⟩], [], []⟩)]
    ⟨[[]], [⟨"//props/x", "", "old mql"⟩], [], []⟩
    (by decide) (by decide)

/-! ## Assets, data, resolved policies, reports

`wrapAsset`, `llx.Result`, `CollectorJob`, `ReportingJob` and `Report` are
declared outside the given source files (inmemory package siblings, the
repository's policy package protos and the external cnquery llx package).
Modelled from the spec: a wrapped asset holds an optional resolved policy and
a version tag; a resolved policy carries its `GraphExecutionChecksum` and an
optional `CollectorJob`; a collector job maps reporting-job UUIDs to jobs
(of which only `QrId` is relevant here) and datapoint checksums to their
declared type; an `llx.Result` carries optional data with a declared type and
a nil flag. Only the fields the embedded functions read are modelled. -/

structure LlxData : Type where
  typ : String
  isNil : Bool
deriving DecidableEq

structure LlxResult : Type where
  data : Option LlxData
deriving DecidableEq

structure DataQueryInfo : Type where
  typ : String
deriving DecidableEq

structure ReportingJob : Type where
  qrId : String
deriving DecidableEq

structure CollectorJob : Type where
  reportingJobs : List (String × ReportingJob)
  datapoints : List (String × DataQueryInfo)
deriving DecidableEq

structure SResolvedPolicy : Type where
  graphExecutionChecksum : String
  collectorJob : Option CollectorJob
deriving DecidableEq

structure WrapAsset : Type where
  resolvedPolicy : Option SResolvedPolicy
  resolvedPolicyVersion : String
deriving DecidableEq

structure Report : Type where
  entityMrn : String
  scoringMrn : String
  score : Option Score
  scores : List (String × Score)
  data : List (String × Option LlxResult)
  resolvedPolicyVersion : String
deriving DecidableEq

/-- The asset, score and data slots of the in-memory cache. A data slot may be
present with a stored `nil` value (`initDataValue` writes `nil`), hence
`Option LlxResult` as the slot type with presence tracked by the store. -/
structure Db : Type where
  assets : List (String × WrapAsset)
  scores : ScoreStore
  data : List ((String × String) × Option LlxResult)
deriving DecidableEq

/-- Model of `GetScores` (policyresolver.go): fetch all named scores; any miss is an
error. -/
def GetScores (db : Db) (assetMrn : String) : List String → Option (List (String × Score))
  | [] => some []
  | q :: rest =>
    match lookupA db.scores (assetMrn, q) with
    | none => none
    | some s => (GetScores db assetMrn rest).map (fun r => (q, s) :: r)

/-- Model of `GetData` (policyresolver.go): fetch all requested data slots; a missing
slot is an error, a slot holding `nil` is returned as `nil`. -/
def GetData (db : Db) (assetMrn : String) : List String → Option (List (String × Option LlxResult))
  | [] => some []
  | c :: rest =>
    match lookupA db.data (assetMrn, c) with
    | none => none
    | some v => (GetData db assetMrn rest).map (fun r => (c, v) :: r)

/-- Model of `GetReport` (policyresolver.go). A score miss at `(assetMrn, qrID)` returns
the empty report as a non-error. A stored asset whose `ResolvedPolicy` or
`CollectorJob` is nil makes the source dereference a nil pointer; this is
modelled as an error (`none`). -/
def GetReport (db : Db) (assetMrn qrID : String) : Option Report :=
  match lookupA db.scores (assetMrn, qrID) with
  | none => some ⟨assetMrn, qrID, none, [], [], ""⟩
  | some score =>
    match lookupA db.assets assetMrn with
    | none => none
    | some assetw =>
      match assetw.resolvedPolicy with
      | none => none
      | some rp =>
        match rp.collectorJob with
        | none => none
        | some cj =>
          let scoreQrIDs := cj.reportingJobs.foldl (fun acc pr =>
            let qrid := if pr.2.qrId = "root" then assetMrn else pr.2.qrId
            if qrid ∈ acc then acc else acc ++ [qrid]) []
          match GetScores db assetMrn scoreQrIDs with
          | none => none
          | some scores =>
            match GetData db assetMrn (cj.datapoints.map Prod.fst) with
            | none => none
            | some dataRes =>
              some ⟨assetMrn, qrID, some score, scores, dataRes, assetw.resolvedPolicyVersion⟩

/-! ## Claim C8: GetReport bootstrap -/

/-- Claim C8 — GetReport bootstrap: for every asset MRN and scoring MRN for which
no score is stored, `GetReport` returns a non-error result that is an empty
report carrying only the entity MRN and scoring MRN: no score, no scores, no
data, and no resolved-policy version. -/
theorem GetReport_bootstrap (db : Db) (assetMrn qrID : String)
    (hnone : lookupA db.scores (assetMrn, qrID) = none) :
    GetReport db assetMrn qrID = some ⟨assetMrn, qrID, none, [], [], ""⟩ := by
  simp only [GetReport, hnone]

/-- Witness for C8 at a concrete input: an empty datalake. -/
theorem GetReport_bootstrap_witness :
    GetReport ⟨[], [], []⟩ "//assets/a" "//assets/a" =
      some ⟨"//assets/a", "//assets/a", none, [], [], ""⟩ :=
  GetReport_bootstrap ⟨[], [], []⟩ "//assets/a" "//assets/a" rfl

/-! ## Claim C5: UpdateData type-mismatch accumulation -/

/-- Model of `GetCollectorJob` (policyresolver.go): asset, resolved policy, collector
job must all exist. -/
def GetCollectorJob (db : Db) (assetMrn : String) : Option CollectorJob :=
  match lookupA db.assets assetMrn with
  | none => none
  | some assetw =>
    match assetw.resolvedPolicy with
    | none => none
    | some rp => rp.collectorJob

/-- Modelled from the spec: `types.Unset`, the distinguished unset type of the
external cnquery `types` package. Only its identity matters here. -/
def typesUnset : String := "\x00"

/-- The per-entry rejection test of `UpdateData`:
`val.Data != nil && !val.Data.IsNil() && val.Data.Type != "" &&
val.Data.Type != info.Type && types.Type(info.Type) != types.Unset`. -/
def isTypeMismatch (info : DataQueryInfo) (val : LlxResult) : Bool :=
  match val.data with
  | none => false
  | some d => (!d.isNil) && d.typ ≠ "" && d.typ ≠ info.typ && info.typ ≠ typesUnset

/-- The outcome of `UpdateData`: a fail-fast error (unknown datapoint or
missing collector job, Go returns `(nil, err)` at once), the accumulated
type-mismatch error list (`multierror`, one entry per rejected checksum), or
the map of stored checksums with their types. -/
inductive UDOutcome : Type where
  | hardErr
  | aggErr (errs : List String)
  | ok (res : List (String × String))
deriving DecidableEq

/-- The `for dpChecksum, val := range data` loop of `UpdateData`. `setDatum`
cache writes are modelled as always admitted. -/
def updateDataGo : Db → String → CollectorJob → List (String × LlxResult) →
    List String → List (String × String) → Db × UDOutcome
  | db, _, _, [], errs, res => (db, if errs.isEmpty then .ok res else .aggErr errs)
  | db, assetMrn, cj, (chk, val) :: rest, errs, res =>
    match lookupA cj.datapoints chk with
    | none => (db, .hardErr)
    | some info =>
      if isTypeMismatch info val then
        updateDataGo db assetMrn cj rest (errs ++ [chk]) res
      else
        updateDataGo { db with data := setA db.data (assetMrn, chk) (some val) } assetMrn cj
          rest errs (res ++ [(chk, info.typ)])

/-- Model of `UpdateData` (policyresolver.go). -/
def UpdateData (db : Db) (assetMrn : String) (data : List (String × LlxResult)) :
    Db × UDOutcome :=
  match GetCollectorJob db assetMrn with
  | none => (db, .hardErr)
  | some cj => updateDataGo db assetMrn cj data [] []

/-- Whether an input entry is rejected, resolved against the catalog. -/
def isMismatchIn (cj : CollectorJob) (p : String × LlxResult) : Bool :=
  match lookupA cj.datapoints p.1 with
  | none => false
  | some info => isTypeMismatch info p.2

theorem updateDataGo_spec :
    ∀ (data : List (String × LlxResult)) (db : Db) (assetMrn : String) (cj : CollectorJob)
      (errs : List String) (res : List (String × String)),
      (∀ p ∈ data, (lookupA cj.datapoints p.1).isSome = true) →
      (data.map Prod.fst).Nodup →
      (∀ chk, chk ∉ data.map Prod.fst →
        lookupA (updateDataGo db assetMrn cj data errs res).1.data (assetMrn, chk) =
          lookupA db.data (assetMrn, chk)) ∧
      (∀ p ∈ data,
        (isMismatchIn cj p = true →
          lookupA (updateDataGo db assetMrn cj data errs res).1.data (assetMrn, p.1) =
            lookupA db.data (assetMrn, p.1)) ∧
        (isMismatchIn cj p = false →
          lookupA (updateDataGo db assetMrn cj data errs res).1.data (assetMrn, p.1) =
            some (some p.2))) ∧
      ((errs ++ (data.filter (isMismatchIn cj)).map Prod.fst ≠ [] →
        (updateDataGo db assetMrn cj data errs res).2 =
          .aggErr (errs ++ (data.filter (isMismatchIn cj)).map Prod.fst)) ∧
       (errs ++ (data.filter (isMismatchIn cj)).map Prod.fst = [] →
        ∃ r, (updateDataGo db assetMrn cj data errs res).2 = .ok r)) := by
  intro data
  induction data with
  | nil =>
    intro db assetMrn cj errs res _ _
    refine ⟨fun chk _ => rfl, fun p hp => absurd hp (List.not_mem_nil p), ?_, ?_⟩
    · intro hne
      simp only [List.filter_nil, List.map_nil, List.append_nil] at hne ⊢
      simp only [updateDataGo]
      rw [if_neg (by simpa [List.isEmpty_iff] using hne)]
    · intro heq
      simp only [List.filter_nil, List.map_nil, List.append_nil] at heq
      subst heq
      exact ⟨res, rfl⟩
  | cons hd tl ih =>
    intro db assetMrn cj errs res hall hnodup
    obtain ⟨chk, val⟩ := hd
    have hinfo : (lookupA cj.datapoints chk).isSome = true :=
      hall (chk, val) (List.mem_cons_self _ _)
    obtain ⟨info, hinfo⟩ := Option.isSome_iff_exists.mp hinfo
    have hmis : isMismatchIn cj (chk, val) = (isTypeMismatch info val) := by
      simp only [isMismatchIn, hinfo]
    have hnodup' : (tl.map Prod.fst).Nodup := hnodup.of_cons
    have hchk : chk ∉ tl.map Prod.fst := by
      have := hnodup
      simp only [List.map_cons, List.nodup_cons] at this
      exact this.1
    have hall' : ∀ p ∈ tl, (lookupA cj.datapoints p.1).isSome = true :=
      fun p hp => hall p (List.mem_cons_of_mem _ hp)
    cases hmm : isTypeMismatch info val with
    | true =>
      have hstep : updateDataGo db assetMrn cj ((chk, val) :: tl) errs res =
          updateDataGo db assetMrn cj tl (errs ++ [chk]) res := by
        simp only [updateDataGo, hinfo, hmm, if_true]
      have IH := ih db assetMrn cj (errs ++ [chk]) res hall' hnodup'
      refine ⟨?_, ?_, ?_, ?_⟩
      · intro c hc
        rw [hstep]
        exact IH.1 c (fun hmem => hc (by simp [hmem]))
      · intro p hp
        rcases List.mem_cons.mp hp with rfl | hp'
        · refine ⟨?_, ?_⟩
          · intro _
            rw [hstep]
            exact IH.1 chk hchk
          · intro hfalse
            rw [hmis, hmm] at hfalse
            cases hfalse
        · exact ⟨fun hx => by rw [hstep]; exact (IH.2.1 p hp').1 hx,
            fun hx => by rw [hstep]; exact (IH.2.1 p hp').2 hx⟩
      · intro _
        rw [hstep]
        have hne : errs ++ [chk] ++ (tl.filter (isMismatchIn cj)).map Prod.fst ≠ [] := by
          simp
        have := IH.2.2.1 hne
        rw [this]
        have hfe : List.filter (isMismatchIn cj) ((chk, val) :: tl) =
            (chk, val) :: tl.filter (isMismatchIn cj) := by
          rw [List.filter_cons]
          rw [if_pos (by rw [hmis, hmm])]
        rw [hfe]
        simp
      · intro heq
        exfalso
        have hfe : List.filter (isMismatchIn cj) ((chk, val) :: tl) =
            (chk, val) :: tl.filter (isMismatchIn cj) := by
          rw [List.filter_cons]
          rw [if_pos (by rw [hmis, hmm])]
        rw [hfe] at heq
        simp at heq
    | false =>
      have hstep : updateDataGo db assetMrn cj ((chk, val) :: tl) errs res =
          updateDataGo { db with data := setA db.data (assetMrn, chk) (some val) } assetMrn cj
            tl errs (res ++ [(chk, info.typ)]) := by
        simp only [updateDataGo, hinfo, hmm, Bool.false_eq_true, if_false]
      have IH := ih { db with data := setA db.data (assetMrn, chk) (some val) } assetMrn cj
        errs (res ++ [(chk, info.typ)]) hall' hnodup'
      have hfe : List.filter (isMismatchIn cj) ((chk, val) :: tl) =
          tl.filter (isMismatchIn cj) := by
        rw [List.filter_cons]
        rw [if_neg (by rw [hmis, hmm]; exact Bool.false_ne_true)]
      refine ⟨?_, ?_, ?_, ?_⟩
      · intro c hc
        rw [hstep, IH.1 c (fun hmem => hc (by simp [hmem]))]
        rw [lookupA_setA]
        rw [if_neg (by intro h; exact hc (by simp [(Prod.mk.injEq _ _ _ _).mp h]))]
      · intro p hp
        rcases List.mem_cons.mp hp with rfl | hp'
        · refine ⟨?_, ?_⟩
          · intro htrue
            rw [hmis, hmm] at htrue
            cases htrue
          · intro _
            rw [hstep, IH.1 chk hchk, lookupA_setA, if_pos rfl]
        · refine ⟨?_, ?_⟩
          · intro hx
            rw [hstep, (IH.2.1 p hp').1 hx, lookupA_setA]
            rw [if_neg (by
              intro h
              have : p.1 = chk := ((Prod.mk.injEq _ _ _ _).mp h).2
              exact hchk (this ▸ (List.mem_map_of_mem Prod.fst hp')))]
          · intro hx
            rw [hstep]
            exact (IH.2.1 p hp').2 hx
      · intro hne
        rw [hstep, (IH.2.2.1 (by rw [hfe] at hne; exact hne))]
        rw [hfe]
      · intro heq
        rw [hstep]
        exact IH.2.2.2 (by rw [hfe] at heq; exact heq)

/-- Claim C5 — UpdateData type-mismatch accumulation: for every input map whose
checksums are all present in the asset's datapoint catalog (no duplicate
checksums, as in a Go map), each entry whose value carries a non-empty,
non-null declared type that disagrees with the catalog type (and the catalog
type is not Unset) is rejected without writing its data slot, processing
continues with the remaining entries, which are stored, and `UpdateData`
returns the accumulated per-checksum type-mismatch errors together. -/
theorem UpdateData_type_mismatch_accumulation (db : Db) (assetMrn : String)
    (data : List (String × LlxResult)) (cj : CollectorJob)
    (hcj : GetCollectorJob db assetMrn = some cj)
    (hall : ∀ p ∈ data, (lookupA cj.datapoints p.1).isSome = true)
    (hnodup : (data.map Prod.fst).Nodup) :
    (∀ p ∈ data,
      (isMismatchIn cj p = true →
        lookupA (UpdateData db assetMrn data).1.data (assetMrn, p.1) =
          lookupA db.data (assetMrn, p.1)) ∧
      (isMismatchIn cj p = false →
        lookupA (UpdateData db assetMrn data).1.data (assetMrn, p.1) = some (some p.2))) ∧
    ((data.filter (isMismatchIn cj)).map Prod.fst ≠ [] →
      (UpdateData db assetMrn data).2 =
        .aggErr ((data.filter (isMismatchIn cj)).map Prod.fst)) ∧
    ((data.filter (isMismatchIn cj)).map Prod.fst = [] →
      ∃ r, (UpdateData db assetMrn data).2 = .ok r) := by
  have hud : UpdateData db assetMrn data = updateDataGo db assetMrn cj data [] [] := by
    simp only [UpdateData, hcj]
  have spec := updateDataGo_spec data db assetMrn cj [] [] hall hnodup
  rw [hud]
  refine ⟨spec.2.1, ?_, ?_⟩
  · intro h
    have := spec.2.2.1 (by simpa using h)
    simpa using this
  · intro h
    exact spec.2.2.2 (by simpa using h)

/-- Witness for C5 at a concrete input: datapoint `c1` declares type `int`
but receives a `string` value (rejected, slot untouched); `c2` declares
`string` and receives a matching value (stored); `UpdateData` returns the
aggregated error list naming exactly `c1`. -/
theorem UpdateData_type_mismatch_accumulation_witness :
    (lookupA (UpdateData
        ⟨[("//assets/a", ⟨some ⟨"gec", some ⟨[], [("c1", ⟨"int"⟩), ("c2", ⟨"string"⟩)]⟩⟩, "v1"⟩)],
          [], []⟩ "//assets/a"
        [("c1", ⟨some ⟨"string", false⟩⟩), ("c2", ⟨some ⟨"string", false⟩⟩)]).1.data
      ("//assets/a", "c1") =
      lookupA (⟨[("//assets/a", ⟨some ⟨"gec", some ⟨[], [("c1", ⟨"int"⟩), ("c2", ⟨"string"⟩)]⟩⟩,
          "v1"⟩)], [], []⟩ : Db).data ("//assets/a", "c1")) ∧
    (lookupA (UpdateData
        ⟨[("//assets/a", ⟨some ⟨"gec", some ⟨[], [("c1", ⟨"int"⟩), ("c2", ⟨"string"⟩)]⟩⟩, "v1"⟩)],
          [], []⟩ "//assets/a"
        [("c1", ⟨some ⟨"string", false⟩⟩), ("c2", ⟨some ⟨"string", false⟩⟩)]).1.data
      ("//assets/a", "c2") = some (some ⟨some ⟨"string", false⟩⟩)) ∧
    ((UpdateData
        ⟨[("//assets/a", ⟨some ⟨"gec", some ⟨[], [("c1", ⟨"int"⟩), ("c2", ⟨"string"⟩)]⟩⟩, "v1"⟩)],
          [], []⟩ "//assets/a"
        [("c1", ⟨some ⟨"string", false⟩⟩), ("c2", ⟨some ⟨"string", false⟩⟩)]).2 =
      UDOutcome.aggErr ["c1"]) := by
  have t := UpdateData_type_mismatch_accumulation
    ⟨[("//assets/a", ⟨some ⟨"gec", some ⟨[], [("c1", ⟨"int"⟩), ("c2", ⟨"string"⟩)]⟩⟩, "v1"⟩)],
      [], []⟩ "//assets/a"
    [("c1", ⟨some ⟨"string", false⟩⟩), ("c2", ⟨some ⟨"string", false⟩⟩)]
    ⟨[], [("c1", ⟨"int"⟩), ("c2", ⟨"string"⟩)]⟩
    (by decide) (by decide) (by decide)
  exact ⟨(t.1 ("c1", ⟨some ⟨"string", false⟩⟩) (by decide)).1 (by decide),
    (t.1 ("c2", ⟨some ⟨"string", false⟩⟩) (by decide)).2 (by decide),
    t.2.1 (by decide)⟩

/-! ## Claim C10: SetAssetResolvedPolicy reset asymmetry -/

/-- Model of `initDataValue` (policyresolver.go): insert a `nil`-valued data slot only
when the slot does not exist yet. The declared type is passed in the source
but never stored. -/
def initDataValue (db : Db) (assetMrn checksum : String) : Db :=
  match lookupA db.data (assetMrn, checksum) with
  | some _ => db
  | none => { db with data := setA db.data (assetMrn, checksum) none }

/-- Model of `initEmptyScore` (policyresolver.go): unconditionally overwrite the score
slot with the zero `Score{}`. -/
def initEmptyScore (db : Db) (assetMrn qrid : String) : Db :=
  { db with scores := setA db.scores (assetMrn, qrid) Score.empty }

/-- The no-op guard of `SetAssetResolvedPolicy`: the asset already holds a
resolved policy with the same `GraphExecutionChecksum` and version. -/
def rpUnchanged (assetw : WrapAsset) (rp : SResolvedPolicy) (version : String) : Bool :=
  match assetw.resolvedPolicy with
  | none => false
  | some orp =>
    orp.graphExecutionChecksum = rp.graphExecutionChecksum &&
      assetw.resolvedPolicyVersion = version

/-- Model of `SetAssetResolvedPolicy` (policyresolver.go): missing asset is an error;
unchanged resolved policy is a no-op; otherwise every datapoint slot is
initialized (if missing) and every reporting job's score slot is overwritten
with the empty score, then the asset wrapper is persisted. A nil
`CollectorJob` would be dereferenced by the source (panic), modelled as an
error. -/
def SetAssetResolvedPolicy (db : Db) (assetMrn : String) (rp : SResolvedPolicy)
    (version : String) : Option Db :=
  match lookupA db.assets assetMrn with
  | none => none
  | some assetw =>
    if rpUnchanged assetw rp version then some db
    else
      match rp.collectorJob with
      | none => none
      | some cj =>
        let db1 := cj.datapoints.foldl (fun d pr => initDataValue d assetMrn pr.1) db
        let db2 := cj.reportingJobs.foldl (fun d pr =>
          initEmptyScore d assetMrn (if pr.2.qrId = "root" then assetMrn else pr.2.qrId)) db1
        some { db2 with assets := setA db2.assets assetMrn ⟨some rp, version⟩ }

theorem foldData_scores (assetMrn : String) :
    ∀ (l : List (String × DataQueryInfo)) (db : Db),
      (l.foldl (fun d pr => initDataValue d assetMrn pr.1) db).scores = db.scores := by
  intro l
  induction l with
  | nil => intro db; rfl
  | cons pr rest ih =>
    intro db
    rw [List.foldl_cons, ih]
    unfold initDataValue
    cases lookupA db.data (assetMrn, pr.1) <;> rfl

theorem initDataValue_lookup (db : Db) (assetMrn c key : String) :
    lookupA (initDataValue db assetMrn c).data (assetMrn, key) =
      if key = c ∧ lookupA db.data (assetMrn, key) = none then some none
      else lookupA db.data (assetMrn, key) := by
  unfold initDataValue
  cases hl : lookupA db.data (assetMrn, c) with
  | some v =>
    by_cases hk : key = c
    · subst hk
      rw [if_neg (fun h => by rw [h.2] at hl; cases hl)]
    · rw [if_neg (fun h => hk h.1)]
  | none =>
    by_cases hk : key = c
    · subst hk
      have hset : lookupA (setA db.data (assetMrn, key) none) (assetMrn, key) = some none := by
        rw [lookupA_setA, if_pos rfl]
      rw [hset, if_pos ⟨rfl, hl⟩]
    · have hset : lookupA (setA db.data (assetMrn, c) none) (assetMrn, key) =
          lookupA db.data (assetMrn, key) := by
        rw [lookupA_setA, if_neg (fun h => hk (((Prod.mk.injEq _ _ _ _).mp h).2))]
      rw [hset, if_neg (fun h => hk h.1)]

theorem foldData_lookup (assetMrn : String) :
    ∀ (l : List (String × DataQueryInfo)) (db : Db) (key : String),
      lookupA (l.foldl (fun d pr => initDataValue d assetMrn pr.1) db).data (assetMrn, key) =
        if key ∈ l.map Prod.fst ∧ lookupA db.data (assetMrn, key) = none then some none
        else lookupA db.data (assetMrn, key) := by
  intro l
  induction l with
  | nil =>
    intro db key
    simp
  | cons pr rest ih =>
    intro db key
    rw [List.foldl_cons, ih, initDataValue_lookup]
    by_cases hC : key = pr.1 ∧ lookupA db.data (assetMrn, key) = none
    · rw [if_pos hC]
      have hlhs : (if key ∈ List.map Prod.fst rest ∧
            (some none : Option (Option LlxResult)) = none
          then (some none : Option (Option LlxResult)) else some none) = some none := by
        split_ifs <;> rfl
      rw [hlhs, if_pos ⟨by simp [hC.1], hC.2⟩]
    · rw [if_neg hC]
      by_cases hL : lookupA db.data (assetMrn, key) = none
      · have hk : ¬ key = pr.1 := fun h => hC ⟨h, hL⟩
        by_cases hr : key ∈ List.map Prod.fst rest
        · rw [if_pos ⟨hr, hL⟩, if_pos ⟨by simp [hr], hL⟩]
        · have hno : ¬ (key ∈ List.map Prod.fst (pr :: rest) ∧
              lookupA db.data (assetMrn, key) = none) := by
            intro h
            have hmem := h.1
            simp only [List.map_cons, List.mem_cons] at hmem
            rcases hmem with h1 | h1
            · exact hk h1
            · exact hr h1
          have hno' : ¬ (key ∈ List.map Prod.fst rest ∧
              lookupA db.data (assetMrn, key) = none) := fun h => hr h.1
          rw [if_neg hno', if_neg hno]
      · have h1 : ¬ (key ∈ List.map Prod.fst rest ∧
            lookupA db.data (assetMrn, key) = none) := fun h => hL h.2
        have h2 : ¬ (key ∈ List.map Prod.fst (pr :: rest) ∧
            lookupA db.data (assetMrn, key) = none) := fun h => hL h.2
        rw [if_neg h1, if_neg h2]

theorem foldScores_data (assetMrn : String) :
    ∀ (l : List (String × ReportingJob)) (db : Db),
      (l.foldl (fun d pr =>
        initEmptyScore d assetMrn (if pr.2.qrId = "root" then assetMrn else pr.2.qrId)) db).data =
        db.data := by
  intro l
  induction l with
  | nil => intro db; rfl
  | cons pr rest ih =>
    intro db
    rw [List.foldl_cons, ih]
    rfl

theorem initEmptyScore_lookup (db : Db) (assetMrn q key : String) :
    lookupA (initEmptyScore db assetMrn q).scores (assetMrn, key) =
      if key = q then some Score.empty else lookupA db.scores (assetMrn, key) := by
  unfold initEmptyScore
  by_cases hk : key = q
  · subst hk
    rw [if_pos rfl]
    show lookupA (setA db.scores (assetMrn, key) Score.empty) (assetMrn, key) = some Score.empty
    rw [lookupA_setA, if_pos rfl]
  · rw [if_neg hk]
    show lookupA (setA db.scores (assetMrn, q) Score.empty) (assetMrn, key) =
      lookupA db.scores (assetMrn, key)
    rw [lookupA_setA, if_neg (fun h => hk (((Prod.mk.injEq _ _ _ _).mp h).2))]

theorem foldScores_lookup (assetMrn : String) :
    ∀ (l : List (String × ReportingJob)) (db : Db) (key : String),
      lookupA (l.foldl (fun d pr =>
          initEmptyScore d assetMrn (if pr.2.qrId = "root" then assetMrn else pr.2.qrId)) db).scores
        (assetMrn, key) =
        if key ∈ l.map (fun pr => if pr.2.qrId = "root" then assetMrn else pr.2.qrId) then
          some Score.empty
        else lookupA db.scores (assetMrn, key) := by
  intro l
  induction l with
  | nil =>
    intro db key
    simp
  | cons pr rest ih =>
    intro db key
    rw [List.foldl_cons, ih, initEmptyScore_lookup]
    by_cases hmem : key ∈ rest.map (fun pr => if pr.2.qrId = "root" then assetMrn else pr.2.qrId)
    · rw [if_pos hmem, if_pos (by simp only [List.map_cons, List.mem_cons]; exact Or.inr hmem)]
    · rw [if_neg hmem]
      by_cases hk : key = (if pr.2.qrId = "root" then assetMrn else pr.2.qrId)
      · rw [if_pos hk, if_pos (by simp only [List.map_cons, List.mem_cons]; exact Or.inl hk)]
      · rw [if_neg hk]
        rw [if_neg (by
          simp only [List.map_cons, List.mem_cons]
          intro h
          rcases h with h | h
          · exact hk h
          · exact hmem h)]

/-- Claim C10 — SetAssetResolvedPolicy reset asymmetry: for every asset whose
stored resolved policy's `GraphExecutionChecksum` or version differs from the
incoming one, `SetAssetResolvedPolicy` overwrites the score slot of every
reporting job's qrId (with `"root"` replaced by the asset MRN) with the empty
`Score` (`Type = Unknown`) even if a non-empty score was already stored there,
while every data slot that already exists is left unchanged and only missing
data slots are initialized to `nil`. -/
theorem SetAssetResolvedPolicy_reset_asymmetry (db : Db) (assetMrn : String)
    (rp : SResolvedPolicy) (version : String) (assetw : WrapAsset)
    (orp : SResolvedPolicy) (cj : CollectorJob) (db' : Db)
    (hassetw : lookupA db.assets assetMrn = some assetw)
    (horp : assetw.resolvedPolicy = some orp)
    (hdiff : orp.graphExecutionChecksum ≠ rp.graphExecutionChecksum ∨
      assetw.resolvedPolicyVersion ≠ version)
    (hcj : rp.collectorJob = some cj)
    (hres : SetAssetResolvedPolicy db assetMrn rp version = some db') :
    (∀ pr ∈ cj.reportingJobs,
      lookupA db'.scores (assetMrn, if pr.2.qrId = "root" then assetMrn else pr.2.qrId) =
        some Score.empty) ∧
    (∀ pr ∈ cj.datapoints, ∀ v, lookupA db.data (assetMrn, pr.1) = some v →
      lookupA db'.data (assetMrn, pr.1) = some v) ∧
    (∀ pr ∈ cj.datapoints, lookupA db.data (assetMrn, pr.1) = none →
      lookupA db'.data (assetMrn, pr.1) = some none) := by
  have hguard : rpUnchanged assetw rp version = false := by
    unfold rpUnchanged
    rw [horp]
    rcases hdiff with h | h <;> simp [h]
  unfold SetAssetResolvedPolicy at hres
  rw [hassetw] at hres
  simp only [hguard, Bool.false_eq_true, if_false, hcj, Option.some_inj] at hres
  subst hres
  refine ⟨?_, ?_, ?_⟩
  · intro pr hpr
    dsimp only
    rw [foldScores_lookup]
    rw [if_pos (List.mem_map_of_mem _ hpr)]
  · intro pr hpr v hv
    dsimp only
    rw [foldScores_data, foldData_lookup]
    rw [if_neg (by intro h; exact absurd h.2 (by simp [hv])), hv]
  · intro pr hpr hv
    dsimp only
    rw [foldScores_data, foldData_lookup]
    rw [if_pos ⟨List.mem_map_of_mem _ hpr, hv⟩]

/-- Witness for C10 at a concrete input: a changed graph checksum resets the
already-stored non-empty score of reporting job `q1` to the empty score, keeps
the existing data slot `c1`, and initializes the missing slot `c2` to nil. -/
theorem SetAssetResolvedPolicy_reset_asymmetry_witness :
    (SetAssetResolvedPolicy
        ⟨[("//assets/a", ⟨some ⟨"old", none⟩, "v1"⟩)],
          [(("//assets/a", "q1"), ⟨"q1", .result, 100, 1, 100, 0, 0, "stored", 9, 0⟩)],
          [(("//assets/a", "c1"), some ⟨some ⟨"int", false⟩⟩)]⟩
        "//assets/a"
        ⟨"new", some ⟨[("u1", ⟨"q1"⟩)], [("c1", ⟨"int"⟩), ("c2", ⟨"string"⟩)]⟩⟩ "v1").isSome ∧
    (∃ db', SetAssetResolvedPolicy
        ⟨[("//assets/a", ⟨some ⟨"old", none⟩, "v1"⟩)],
          [(("//assets/a", "q1"), ⟨"q1", .result, 100, 1, 100, 0, 0, "stored", 9, 0⟩)],
          [(("//assets/a", "c1"), some ⟨some ⟨"int", false⟩⟩)]⟩
        "//assets/a"
        ⟨"new", some ⟨[("u1", ⟨"q1"⟩)], [("c1", ⟨"int"⟩), ("c2", ⟨"string"⟩)]⟩⟩ "v1" = some db' ∧
      lookupA db'.scores ("//assets/a", "q1") = some Score.empty ∧
      lookupA db'.data ("//assets/a", "c1") = some (some ⟨some ⟨"int", false⟩⟩) ∧
      lookupA db'.data ("//assets/a", "c2") = some none) := by
  constructor
  · decide
  · cases hres : SetAssetResolvedPolicy
        ⟨[("//assets/a", ⟨some ⟨"old", none⟩, "v1"⟩)],
          [(("//assets/a", "q1"), ⟨"q1", .result, 100, 1, 100, 0, 0, "stored", 9, 0⟩)],
          [(("//assets/a", "c1"), some ⟨some ⟨"int", false⟩⟩)]⟩
        "//assets/a"
        ⟨"new", some ⟨[("u1", ⟨"q1"⟩)], [("c1", ⟨"int"⟩), ("c2", ⟨"string"⟩)]⟩⟩ "v1" with
    | none => exact absurd hres (by decide)
    | some db' =>
      have t := SetAssetResolvedPolicy_reset_asymmetry
        ⟨[("//assets/a", ⟨some ⟨"old", none⟩, "v1"⟩)],
          [(("//assets/a", "q1"), ⟨"q1", .result, 100, 1, 100, 0, 0, "stored", 9, 0⟩)],
          [(("//assets/a", "c1"), some ⟨some ⟨"int", false⟩⟩)]⟩
        "//assets/a"
        ⟨"new", some ⟨[("u1", ⟨"q1"⟩)], [("c1", ⟨"int"⟩), ("c2", ⟨"string"⟩)]⟩⟩ "v1"
        ⟨some ⟨"old", none⟩, "v1"⟩ ⟨"old", none⟩
        ⟨[("u1", ⟨"q1"⟩)], [("c1", ⟨"int"⟩), ("c2", ⟨"string"⟩)]⟩ db'
        (by decide) rfl (by decide) rfl hres
      refine ⟨db', rfl, ?_, ?_, ?_⟩
      · exact t.1 ("u1", ⟨"q1"⟩) (by decide)
      · exact t.2.1 ("c1", ⟨"int"⟩) (by decide) (some ⟨some ⟨"int", false⟩⟩) (by decide)
      · exact t.2.2 ("c2", ⟨"string"⟩) (by decide) (by decide)

/-! ## Claim C6: PoliciesSortedByDependency (policy/bundle_map.go)

The bundle map's `Policies` field is a Go map MRN → policy, modelled as an
association list; for sorting, only a policy's `Mrn` and the MRNs of the
`Policies` refs of its groups matter. `sortPolicies` recurses into
dependencies found in the map, guarded by the `indexer` visited set; in Lean
the recursion carries explicit fuel (the Go code relies on the indexer for
termination and diverges only on maps whose keys disagree with the stored
MRNs; sufficient fuel is computed and proved below). -/

structure SPolicy : Type where
  mrn : String
  groups : List (List String)
deriving DecidableEq

/-- The dependency MRNs of a policy: its groups' `Policies` refs, in source
iteration order. -/
def depsOf (p : SPolicy) : List String :=
  p.groups.flatten

inductive SortErr : Type where
  | emptyMrn
  | outOfFuel
deriving DecidableEq

instance {ε α : Type} [DecidableEq ε] [DecidableEq α] : DecidableEq (Except ε α) := fun x y =>
  match x, y with
  | .error a, .error b =>
    if h : a = b then .isTrue (by rw [h]) else .isFalse (by intro hc; cases hc; exact h rfl)
  | .error _, .ok _ => .isFalse (by intro h; cases h)
  | .ok _, .error _ => .isFalse (by intro h; cases h)
  | .ok a, .ok b =>
    if h : a = b then .isTrue (by rw [h]) else .isFalse (by intro hc; cases hc; exact h rfl)

inductive SortTask : Type where
  | pol (p : SPolicy)
  | deps (ds : List String)

/-- The mutual recursion of `sortPolicies` (policy + its groups' dependency
list), fused into one fuel-indexed function. `.pol p` is `sortPolicies(p,
bundle, indexer)`; `.deps ds` is the nested loop over the remaining
dependency refs. `.error .emptyMrn` is the source's "dependency MRN is empty"
error; `.error .outOfFuel` stands for divergence of the Go recursion. -/
def sortGo : Nat → SortTask → List (String × SPolicy) → List String →
    Except SortErr (List SPolicy × List String)
  | 0, _, _, _ => .error .outOfFuel
  | n + 1, .pol p, bundle, idx =>
    match sortGo n (.deps (depsOf p)) bundle (p.mrn :: idx) with
    | .error e => .error e
    | .ok (res, idx') => .ok (res ++ [p], idx')
  | _ + 1, .deps [], _, idx => .ok ([], idx)
  | n + 1, .deps (d :: ds), bundle, idx =>
    if d = "" then .error .emptyMrn
    else if d ∈ idx then sortGo n (.deps ds) bundle idx
    else
      match lookupA bundle d with
      | none => sortGo n (.deps ds) bundle idx
      | some dep =>
        match sortGo n (.pol dep) bundle idx with
        | .error e => .error e
        | .ok (r1, idx1) =>
          match sortGo n (.deps ds) bundle idx1 with
          | .error e => .error e
          | .ok (r2, idx2) => .ok (r1 ++ r2, idx2)

/-- Total number of dependency refs in the bundle. -/
def depsTotal (bundle : List (String × SPolicy)) : Nat :=
  (bundle.map (fun pr => (depsOf pr.2).length)).sum

/-- Fuel sufficient for any well-keyed bundle (proved below). -/
def sortFuel (bundle : List (String × SPolicy)) : Nat :=
  (bundle.length + 1) * (depsTotal bundle + 2) + 2

/-- The loop of `PoliciesSortedByDependency` over the bundle's policies. -/
def sortOuter (fuel : Nat) (bundle : List (String × SPolicy)) :
    List (String × SPolicy) → List String → Except SortErr (List SPolicy × List String)
  | [], idx => .ok ([], idx)
  | (_, p) :: rest, idx =>
    if p.mrn ∈ idx then sortOuter fuel bundle rest idx
    else
      match sortGo fuel (.pol p) bundle idx with
      | .error e => .error e
      | .ok (r1, idx1) =>
        match sortOuter fuel bundle rest idx1 with
        | .error e => .error e
        | .ok (r2, idx2) => .ok (r1 ++ r2, idx2)

/-- Model of `PoliciesSortedByDependency` (bundle_map.go). -/
def PoliciesSortedByDependency (bundle : List (String × SPolicy)) :
    Except SortErr (List SPolicy) :=
  (sortOuter (sortFuel bundle) bundle bundle []).map Prod.fst

/-- The map's keys. -/
def bundleKeys (bundle : List (String × SPolicy)) : List String :=
  bundle.map Prod.fst

/-- Well-keyed bundle: every stored policy's `Mrn` equals its map key (the
source's documented precondition "the MRN field must be set and dependencies
in groups must be specified by MRN"). -/
def KeysMatch (bundle : List (String × SPolicy)) : Prop :=
  ∀ pr ∈ bundle, pr.2.mrn = pr.1

/-- A topological ranking: along every dependency edge that stays inside the
map, the rank strictly decreases. A finite dependency graph admits such a
ranking iff it is acyclic. -/
def RankedAcyclic (bundle : List (String × SPolicy)) (rank : String → Nat) : Prop :=
  ∀ pr ∈ bundle, ∀ d ∈ depsOf pr.2, d ∈ bundleKeys bundle → rank d < rank pr.2.mrn

/-- Dependencies present in the map appear strictly before their dependents. -/
def DepsBefore (bundle : List (String × SPolicy)) (l : List SPolicy) : Prop :=
  ∀ l1 q l2, l = l1 ++ q :: l2 → ∀ d ∈ depsOf q, d ∈ bundleKeys bundle →
    d ∈ l1.map SPolicy.mrn

/-- Claim C6 counterexample — The claim "when the policies of the map contain a
dependency cycle, the call fails with a distinct error kind" is false:
`sortPolicies` only guards recursion with the visited `indexer` and raises no
cycle error. On the two-policy cycle A ↔ B the call succeeds, returning
`[B, A]`, in which B's in-map dependency A appears *after* B — so the
deps-before-dependents reading also fails on cyclic maps. -/
theorem PoliciesSortedByDependency_cycle_cex :
    "B" ∈ depsOf (⟨"A", [["B"]]⟩ : SPolicy) ∧
    "A" ∈ depsOf (⟨"B", [["A"]]⟩ : SPolicy) ∧
    PoliciesSortedByDependency [("A", ⟨"A", [["B"]]⟩), ("B", ⟨"B", [["A"]]⟩)] =
      .ok [⟨"B", [["A"]]⟩, ⟨"A", [["B"]]⟩] := by
  decide

theorem lookupA_mem {κ β : Type} [DecidableEq κ] (k : κ) (v : β) :
    ∀ (l : List (κ × β)), lookupA l k = some v → (k, v) ∈ l := by
  intro l
  induction l with
  | nil => intro h; cases h
  | cons p rest ih =>
    intro h
    rw [lookupA_cons] at h
    by_cases hk : p.1 = k
    · rw [if_pos hk] at h
      obtain rfl := Option.some_inj.mp h
      have hp : p = (k, p.2) := by
        rw [Prod.ext_iff]
        exact ⟨hk, rfl⟩
      rw [← hp]
      exact List.mem_cons_self p rest
    · rw [if_neg hk] at h
      exact List.mem_cons_of_mem _ (ih h)

theorem lookupA_of_mem_nodup {κ β : Type} [DecidableEq κ] :
    ∀ (l : List (κ × β)), (l.map Prod.fst).Nodup → ∀ (k : κ) (v : β), (k, v) ∈ l →
      lookupA l k = some v := by
  intro l
  induction l with
  | nil =>
    intro _ k v h
    cases h
  | cons p rest ih =>
    intro hnd k v h
    rw [lookupA_cons]
    rcases List.mem_cons.mp h with heq | h'
    · rw [← heq]
      rw [if_pos rfl]
    · rw [List.map_cons] at hnd
      obtain ⟨hhd, htl⟩ := List.nodup_cons.mp hnd
      by_cases hk : p.1 = k
      · exfalso
        have hmem : k ∈ rest.map Prod.fst := List.mem_map_of_mem Prod.fst h'
        exact hhd (hk ▸ hmem)
      · rw [if_neg hk]
        exact ih htl k v h'

theorem sortGo_idx (B : List (String × SPolicy)) :
    ∀ (n : Nat) (t : SortTask) (idx : List String) (res : List SPolicy) (idx' : List String),
      sortGo n t B idx = .ok (res, idx') →
      ∀ x, x ∈ idx' ↔ x ∈ idx ∨ x ∈ res.map SPolicy.mrn := by
  intro n
  induction n with
  | zero =>
    intro t idx res idx' h
    cases h
  | succ n ih =>
    intro t idx res idx' h
    cases t with
    | pol p =>
      cases hin : sortGo n (.deps (depsOf p)) B (p.mrn :: idx) with
      | error e =>
        simp only [sortGo, hin] at h
        exact Except.noConfusion h
      | ok pr =>
        obtain ⟨res0, idx0⟩ := pr
        simp only [sortGo, hin, Except.ok.injEq, Prod.mk.injEq] at h
        obtain ⟨rfl, rfl⟩ := h
        intro x
        rw [ih _ _ _ _ hin x]
        simp only [List.mem_cons, List.map_append, List.map_cons, List.map_nil,
          List.mem_append, List.mem_singleton]
        tauto
    | deps ds =>
      cases ds with
      | nil =>
        simp only [sortGo, Except.ok.injEq, Prod.mk.injEq] at h
        obtain ⟨rfl, rfl⟩ := h
        intro x
        simp
      | cons d rest =>
        by_cases hd : d = ""
        · simp only [sortGo, if_pos hd] at h
          exact Except.noConfusion h
        · by_cases hmem : d ∈ idx
          · simp only [sortGo, if_neg hd, if_pos hmem] at h
            exact ih _ _ _ _ h
          · cases hl : lookupA B d with
            | none =>
              simp only [sortGo, if_neg hd, if_neg hmem, hl] at h
              exact ih _ _ _ _ h
            | some dep =>
              cases h1 : sortGo n (.pol dep) B idx with
              | error e =>
                simp only [sortGo, if_neg hd, if_neg hmem, hl, h1] at h
                exact Except.noConfusion h
              | ok pr1 =>
                obtain ⟨r1, idx1⟩ := pr1
                cases h2 : sortGo n (.deps rest) B idx1 with
                | error e =>
                  simp only [sortGo, if_neg hd, if_neg hmem, hl, h1, h2] at h
                  exact Except.noConfusion h
                | ok pr2 =>
                  obtain ⟨r2, idx2⟩ := pr2
                  simp only [sortGo, if_neg hd, if_neg hmem, hl, h1, h2,
                    Except.ok.injEq, Prod.mk.injEq] at h
                  obtain ⟨rfl, rfl⟩ := h
                  intro x
                  rw [ih _ _ _ _ h2 x, ih _ _ _ _ h1 x]
                  simp only [List.map_append, List.mem_append]
                  tauto

theorem sortGo_subset (B : List (String × SPolicy)) (n : Nat) (t : SortTask)
    (idx : List String) (res : List SPolicy) (idx' : List String)
    (h : sortGo n t B idx = .ok (res, idx')) :
    ∀ x ∈ idx, x ∈ idx' :=
  fun x hx => (sortGo_idx B n t idx res idx' h x).mpr (Or.inl hx)

theorem sortGo_pol_mem (B : List (String × SPolicy)) (n : Nat) (p : SPolicy)
    (idx : List String) (res : List SPolicy) (idx' : List String)
    (h : sortGo n (.pol p) B idx = .ok (res, idx')) :
    p.mrn ∈ idx' := by
  cases n with
  | zero => cases h
  | succ n =>
    cases hin : sortGo n (.deps (depsOf p)) B (p.mrn :: idx) with
    | error e =>
      simp only [sortGo, hin] at h
      exact Except.noConfusion h
    | ok pr =>
      obtain ⟨res0, idx0⟩ := pr
      simp only [sortGo, hin, Except.ok.injEq, Prod.mk.injEq] at h
      obtain ⟨rfl, rfl⟩ := h
      exact sortGo_subset B n _ _ _ _ hin p.mrn (List.mem_cons_self _ _)

theorem sortGo_deps_done (B : List (String × SPolicy)) (hkm : KeysMatch B) :
    ∀ (n : Nat) (ds : List String) (idx : List String) (res : List SPolicy)
      (idx' : List String),
      sortGo n (.deps ds) B idx = .ok (res, idx') →
      ∀ d ∈ ds, d ∈ bundleKeys B → d ∈ idx' := by
  intro n
  induction n with
  | zero =>
    intro ds idx res idx' h
    cases h
  | succ n ih =>
    intro ds idx res idx' h
    cases ds with
    | nil =>
      intro d hd
      cases hd
    | cons d0 rest =>
      intro d hd hdk
      by_cases hd0 : d0 = ""
      · simp only [sortGo, if_pos hd0] at h
        exact Except.noConfusion h
      · by_cases hmem : d0 ∈ idx
        · simp only [sortGo, if_neg hd0, if_pos hmem] at h
          rcases List.mem_cons.mp hd with rfl | hd'
          · exact sortGo_subset B n _ _ _ _ h d hmem
          · exact ih rest idx res idx' h d hd' hdk
        · cases hl : lookupA B d0 with
          | none =>
            simp only [sortGo, if_neg hd0, if_neg hmem, hl] at h
            rcases List.mem_cons.mp hd with rfl | hd'
            · exfalso
              have := lookupA_isSome_of_mem_keys B d hdk
              rw [hl] at this
              cases this
            · exact ih rest idx res idx' h d hd' hdk
          | some dep =>
            have hdep : dep.mrn = d0 := hkm (d0, dep) (lookupA_mem d0 dep B hl)
            cases h1 : sortGo n (.pol dep) B idx with
            | error e =>
              simp only [sortGo, if_neg hd0, if_neg hmem, hl, h1] at h
              exact Except.noConfusion h
            | ok pr1 =>
              obtain ⟨r1, idx1⟩ := pr1
              cases h2 : sortGo n (.deps rest) B idx1 with
              | error e =>
                simp only [sortGo, if_neg hd0, if_neg hmem, hl, h1, h2] at h
                exact Except.noConfusion h
              | ok pr2 =>
                obtain ⟨r2, idx2⟩ := pr2
                simp only [sortGo, if_neg hd0, if_neg hmem, hl, h1, h2,
                  Except.ok.injEq, Prod.mk.injEq] at h
                obtain ⟨rfl, rfl⟩ := h
                rcases List.mem_cons.mp hd with rfl | hd'
                · have hm1 : d ∈ idx1 := hdep ▸ sortGo_pol_mem B n dep idx r1 idx1 h1
                  exact sortGo_subset B n _ _ _ _ h2 d hm1
                · exact ih rest idx1 r2 _ h2 d hd' hdk

theorem sortGo_emits (B : List (String × SPolicy)) (hkm : KeysMatch B)
    (hnd : (bundleKeys B).Nodup) :
    ∀ (n : Nat) (t : SortTask) (idx : List String) (res : List SPolicy)
      (idx' : List String),
      sortGo n t B idx = .ok (res, idx') →
      (match t with
       | .pol p => lookupA B p.mrn = some p ∧ p.mrn ∉ idx
       | .deps _ => True) →
      (∀ q ∈ res, lookupA B q.mrn = some q ∧ q.mrn ∉ idx) ∧
        (res.map SPolicy.mrn).Nodup := by
  intro n
  induction n with
  | zero =>
    intro t idx res idx' h
    cases h
  | succ n ih =>
    intro t idx res idx' h hpre
    cases t with
    | pol p =>
      obtain ⟨hlp, hnin⟩ := hpre
      cases hin : sortGo n (.deps (depsOf p)) B (p.mrn :: idx) with
      | error e =>
        simp only [sortGo, hin] at h
        exact Except.noConfusion h
      | ok pr =>
        obtain ⟨res0, idx0⟩ := pr
        simp only [sortGo, hin, Except.ok.injEq, Prod.mk.injEq] at h
        obtain ⟨rfl, rfl⟩ := h
        have IH := ih _ _ _ _ hin trivial
        constructor
        · intro q hq
          rcases List.mem_append.mp hq with hq' | hq'
          · have hq0 := IH.1 q hq'
            exact ⟨hq0.1, fun hx => hq0.2 (List.mem_cons_of_mem _ hx)⟩
          · rw [List.mem_singleton.mp hq']
            exact ⟨hlp, hnin⟩
        · rw [List.map_append, List.map_cons, List.map_nil]
          rw [List.nodup_append]
          refine ⟨IH.2, List.nodup_singleton _, ?_⟩
          intro x hx hx'
          rw [List.mem_singleton] at hx'
          subst hx'
          obtain ⟨q, hq, hqeq⟩ := List.mem_map.mp hx
          exact (IH.1 q hq).2 (by rw [hqeq]; exact List.mem_cons_self _ _)
    | deps ds =>
      cases ds with
      | nil =>
        simp only [sortGo, Except.ok.injEq, Prod.mk.injEq] at h
        obtain ⟨rfl, rfl⟩ := h
        exact ⟨fun q hq => absurd hq (List.not_mem_nil q), List.nodup_nil⟩
      | cons d rest =>
        by_cases hd : d = ""
        · simp only [sortGo, if_pos hd] at h
          exact Except.noConfusion h
        · by_cases hmem : d ∈ idx
          · simp only [sortGo, if_neg hd, if_pos hmem] at h
            exact ih _ _ _ _ h trivial
          · cases hl : lookupA B d with
            | none =>
              simp only [sortGo, if_neg hd, if_neg hmem, hl] at h
              exact ih _ _ _ _ h trivial
            | some dep =>
              have hdep : dep.mrn = d := hkm (d, dep) (lookupA_mem d dep B hl)
              cases h1 : sortGo n (.pol dep) B idx with
              | error e =>
                simp only [sortGo, if_neg hd, if_neg hmem, hl, h1] at h
                exact Except.noConfusion h
              | ok pr1 =>
                obtain ⟨r1, idx1⟩ := pr1
                cases h2 : sortGo n (.deps rest) B idx1 with
                | error e =>
                  simp only [sortGo, if_neg hd, if_neg hmem, hl, h1, h2] at h
                  exact Except.noConfusion h
                | ok pr2 =>
                  obtain ⟨r2, idx2⟩ := pr2
                  simp only [sortGo, if_neg hd, if_neg hmem, hl, h1, h2,
                    Except.ok.injEq, Prod.mk.injEq] at h
                  obtain ⟨rfl, rfl⟩ := h
                  have IH1 := ih _ _ _ _ h1 ⟨by rw [hdep]; exact hl, by rw [hdep]; exact hmem⟩
                  have IH2 := ih _ _ _ _ h2 trivial
                  have hidx1 := sortGo_idx B n _ _ _ _ h1
                  constructor
                  · intro q hq
                    rcases List.mem_append.mp hq with hq' | hq'
                    · exact IH1.1 q hq'
                    · have hq2 := IH2.1 q hq'
                      refine ⟨hq2.1, fun hx => hq2.2 ?_⟩
                      exact (hidx1 q.mrn).mpr (Or.inl hx)
                  · rw [List.map_append, List.nodup_append]
                    refine ⟨IH1.2, IH2.2, ?_⟩
                    intro x hx1 hx2
                    obtain ⟨q2, hq2, hq2eq⟩ := List.mem_map.mp hx2
                    have hq2n : q2.mrn ∉ idx1 := (IH2.1 q2 hq2).2
                    exact hq2n ((hidx1 q2.mrn).mpr (Or.inr (by rw [hq2eq]; exact hx1)))

/-- Predicate `GoodFrom B C l`: every policy in `l` has all its in-map dependencies
either satisfying `C` (already emitted before `l`) or appearing earlier in
`l`. `GoodFrom B (fun _ => False) l` is the deps-before-dependents property
of `l`. -/
def GoodFrom (B : List (String × SPolicy)) (C : String → Prop) : List SPolicy → Prop
  | [] => True
  | q :: rest => (∀ d ∈ depsOf q, d ∈ bundleKeys B → C d) ∧
      GoodFrom B (fun x => C x ∨ x = q.mrn) rest

theorem GoodFrom_mono (B : List (String × SPolicy)) :
    ∀ (l : List SPolicy) (C C' : String → Prop), (∀ x, C x → C' x) →
      GoodFrom B C l → GoodFrom B C' l := by
  intro l
  induction l with
  | nil =>
    intro C C' h hg
    trivial
  | cons q rest ih =>
    intro C C' h hg
    exact ⟨fun d hd hdk => h d (hg.1 d hd hdk),
      ih _ _ (fun x hx => hx.elim (fun hc => Or.inl (h x hc)) Or.inr) hg.2⟩

theorem GoodFrom_append (B : List (String × SPolicy)) :
    ∀ (l1 : List SPolicy) (C : String → Prop) (l2 : List SPolicy),
      GoodFrom B C l1 → GoodFrom B (fun x => C x ∨ x ∈ l1.map SPolicy.mrn) l2 →
      GoodFrom B C (l1 ++ l2) := by
  intro l1
  induction l1 with
  | nil =>
    intro C l2 _ h2
    exact GoodFrom_mono B l2 _ C
      (fun x hx => hx.elim id (fun hf => absurd (by simpa using hf) (List.not_mem_nil x))) h2
  | cons q rest ih =>
    intro C l2 h1 h2
    refine ⟨h1.1, ?_⟩
    apply ih (fun x => C x ∨ x = q.mrn) l2 h1.2
    apply GoodFrom_mono B l2 _ _ ?_ h2
    intro x hx
    rcases hx with hc | hmem
    · exact Or.inl (Or.inl hc)
    · rw [List.map_cons, List.mem_cons] at hmem
      rcases hmem with heq | hmem
      · exact Or.inl (Or.inr heq)
      · exact Or.inr hmem

theorem sortGo_good (B : List (String × SPolicy)) (hkm : KeysMatch B)
    (rank : String → Nat) (hra : RankedAcyclic B rank) :
    ∀ (n : Nat) (t : SortTask) (idx : List String) (res : List SPolicy)
      (idx' : List String) (C : String → Prop) (A : List String) (r0 : Nat),
      sortGo n t B idx = .ok (res, idx') →
      (∀ x ∈ idx, C x ∨ x ∈ A) →
      (match t with
       | .pol p => lookupA B p.mrn = some p ∧ p.mrn ∉ idx ∧ (∀ a ∈ A, rank p.mrn < rank a)
       | .deps ds => (∀ d ∈ ds, d ∈ bundleKeys B → rank d < r0) ∧ (∀ a ∈ A, r0 ≤ rank a)) →
      GoodFrom B C res ∧ (∀ x ∈ idx', C x ∨ x ∈ res.map SPolicy.mrn ∨ x ∈ A) := by
  intro n
  induction n with
  | zero =>
    intro t idx res idx' C A r0 h
    cases h
  | succ n ih =>
    intro t idx res idx' C A r0 h hcov hpre
    cases t with
    | pol p =>
      obtain ⟨hlp, hnin, hA⟩ := hpre
      have hpB : (p.mrn, p) ∈ B := lookupA_mem p.mrn p B hlp
      have hdeps : ∀ d ∈ depsOf p, d ∈ bundleKeys B → rank d < rank p.mrn :=
        fun d hd hdk => hra (p.mrn, p) hpB d hd hdk
      cases hin : sortGo n (.deps (depsOf p)) B (p.mrn :: idx) with
      | error e =>
        simp only [sortGo, hin] at h
        exact Except.noConfusion h
      | ok pr =>
        obtain ⟨res0, idx0⟩ := pr
        simp only [sortGo, hin, Except.ok.injEq, Prod.mk.injEq] at h
        obtain ⟨rfl, rfl⟩ := h
        have hcov1 : ∀ x ∈ (p.mrn :: idx), C x ∨ x ∈ (p.mrn :: A) := by
          intro x hx
          rcases List.mem_cons.mp hx with rfl | hx'
          · exact Or.inr (List.mem_cons_self _ _)
          · rcases hcov x hx' with hc | ha
            · exact Or.inl hc
            · exact Or.inr (List.mem_cons_of_mem _ ha)
        have hpre1 : (∀ d ∈ depsOf p, d ∈ bundleKeys B → rank d < rank p.mrn) ∧
            (∀ a ∈ (p.mrn :: A), rank p.mrn ≤ rank a) := by
          refine ⟨hdeps, ?_⟩
          intro a ha
          rcases List.mem_cons.mp ha with rfl | ha'
          · exact le_refl _
          · exact le_of_lt (hA a ha')
        have IH := ih _ _ _ _ C (p.mrn :: A) (rank p.mrn) hin hcov1 hpre1
        have hdone := sortGo_deps_done B hkm n (depsOf p) (p.mrn :: idx) res0 idx0 hin
        constructor
        · apply GoodFrom_append B res0 C [p] IH.1
          refine ⟨?_, trivial⟩
          intro d hd hdk
          have hdidx0 : d ∈ idx0 := hdone d hd hdk
          rcases IH.2 d hdidx0 with hc | hres | hA'
          · exact Or.inl hc
          · exact Or.inr hres
          · exfalso
            rcases List.mem_cons.mp hA' with rfl | hA''
            · exact lt_irrefl _ (hdeps p.mrn hd hdk)
            · exact lt_irrefl _ ((hdeps d hd hdk).trans (hA d hA''))
        · intro x hx
          rcases IH.2 x hx with hc | hres | hA'
          · exact Or.inl hc
          · refine Or.inr (Or.inl ?_)
            rw [List.map_append]
            exact List.mem_append_left _ hres
          · rcases List.mem_cons.mp hA' with rfl | hA''
            · refine Or.inr (Or.inl ?_)
              rw [List.map_append, List.map_cons, List.map_nil]
              exact List.mem_append_right _ (List.mem_cons_self _ _)
            · exact Or.inr (Or.inr hA'')
    | deps ds =>
      obtain ⟨hds, hA⟩ := hpre
      cases ds with
      | nil =>
        simp only [sortGo, Except.ok.injEq, Prod.mk.injEq] at h
        obtain ⟨rfl, rfl⟩ := h
        refine ⟨trivial, ?_⟩
        intro x hx
        rcases hcov x hx with hc | ha
        · exact Or.inl hc
        · exact Or.inr (Or.inr ha)
      | cons d rest =>
        by_cases hd : d = ""
        · simp only [sortGo, if_pos hd] at h
          exact Except.noConfusion h
        · have hds' : ∀ d' ∈ rest, d' ∈ bundleKeys B → rank d' < r0 :=
            fun d' hd' hdk => hds d' (List.mem_cons_of_mem _ hd') hdk
          by_cases hmem : d ∈ idx
          · simp only [sortGo, if_neg hd, if_pos hmem] at h
            exact ih _ _ _ _ C A r0 h hcov ⟨hds', hA⟩
          · cases hl : lookupA B d with
            | none =>
              simp only [sortGo, if_neg hd, if_neg hmem, hl] at h
              exact ih _ _ _ _ C A r0 h hcov ⟨hds', hA⟩
            | some dep =>
              have hdB : (d, dep) ∈ B := lookupA_mem d dep B hl
              have hdep : dep.mrn = d := hkm (d, dep) hdB
              have hdk : d ∈ bundleKeys B := List.mem_map_of_mem Prod.fst hdB
              cases h1 : sortGo n (.pol dep) B idx with
              | error e =>
                simp only [sortGo, if_neg hd, if_neg hmem, hl, h1] at h
                exact Except.noConfusion h
              | ok pr1 =>
                obtain ⟨r1, idx1⟩ := pr1
                cases h2 : sortGo n (.deps rest) B idx1 with
                | error e =>
                  simp only [sortGo, if_neg hd, if_neg hmem, hl, h1, h2] at h
                  exact Except.noConfusion h
                | ok pr2 =>
                  obtain ⟨r2, idx2⟩ := pr2
                  simp only [sortGo, if_neg hd, if_neg hmem, hl, h1, h2,
                    Except.ok.injEq, Prod.mk.injEq] at h
                  obtain ⟨rfl, rfl⟩ := h
                  have hpre1 : lookupA B dep.mrn = some dep ∧ dep.mrn ∉ idx ∧
                      (∀ a ∈ A, rank dep.mrn < rank a) := by
                    refine ⟨by rw [hdep]; exact hl, by rw [hdep]; exact hmem, ?_⟩
                    intro a ha
                    rw [hdep]
                    exact lt_of_lt_of_le (hds d (List.mem_cons_self _ _) hdk) (hA a ha)
                  have IH1 := ih _ _ _ _ C A r0 h1 hcov hpre1
                  have hcov2 : ∀ x ∈ idx1,
                      (fun x => C x ∨ x ∈ r1.map SPolicy.mrn) x ∨ x ∈ A := by
                    intro x hx
                    rcases IH1.2 x hx with hc | hr | ha
                    · exact Or.inl (Or.inl hc)
                    · exact Or.inl (Or.inr hr)
                    · exact Or.inr ha
                  have IH2 := ih _ _ _ _ (fun x => C x ∨ x ∈ r1.map SPolicy.mrn) A r0
                    h2 hcov2 ⟨hds', hA⟩
                  constructor
                  · exact GoodFrom_append B r1 C r2 IH1.1 IH2.1
                  · intro x hx
                    rcases IH2.2 x hx with hc | hr | ha
                    · rcases hc with hc' | hr1
                      · exact Or.inl hc'
                      · refine Or.inr (Or.inl ?_)
                        rw [List.map_append]
                        exact List.mem_append_left _ hr1
                    · refine Or.inr (Or.inl ?_)
                      rw [List.map_append]
                      exact List.mem_append_right _ hr
                    · exact Or.inr (Or.inr ha)

/-- Number of bundle keys not yet in the indexer (the DFS termination
measure). -/
def phiList (idx : List String) : List String → Nat
  | [] => 0
  | k :: rest => (if k ∈ idx then 0 else 1) + phiList idx rest

def phiIdx (B : List (String × SPolicy)) (idx : List String) : Nat :=
  phiList idx (bundleKeys B)

theorem phiList_mono (idx idx' : List String) (h : ∀ x ∈ idx, x ∈ idx') :
    ∀ keys : List String, phiList idx' keys ≤ phiList idx keys := by
  intro keys
  induction keys with
  | nil => exact le_refl _
  | cons k rest ih =>
    simp only [phiList]
    apply Nat.add_le_add ?_ ih
    by_cases hk : k ∈ idx
    · rw [if_pos (h k hk), if_pos hk]
    · rw [if_neg hk]
      split_ifs <;> omega

theorem phiIdx_mono (B : List (String × SPolicy)) (idx idx' : List String)
    (h : ∀ x ∈ idx, x ∈ idx') : phiIdx B idx' ≤ phiIdx B idx :=
  phiList_mono idx idx' h (bundleKeys B)

theorem phiList_insert_lt (idx : List String) (d : String) (hd : d ∉ idx) :
    ∀ keys : List String, d ∈ keys →
      phiList (d :: idx) keys < phiList idx keys := by
  intro keys
  induction keys with
  | nil =>
    intro h
    cases h
  | cons k rest ih =>
    intro hmem
    simp only [phiList]
    by_cases hk : k = d
    · have h1 : k ∈ d :: idx := by rw [hk]; exact List.mem_cons_self _ _
      have h2 : k ∉ idx := by rw [hk]; exact hd
      rw [if_pos h1, if_neg h2]
      have := phiList_mono idx (d :: idx) (fun x hx => List.mem_cons_of_mem _ hx) rest
      omega
    · have hdm : d ∈ rest := by
        rcases List.mem_cons.mp hmem with heq | hr
        · exact absurd heq.symm hk
        · exact hr
      have := ih hdm
      by_cases hki : k ∈ idx
      · rw [if_pos hki, if_pos (List.mem_cons_of_mem _ hki)]
        omega
      · have hki' : k ∉ d :: idx := by
          intro hc
          rcases List.mem_cons.mp hc with heq | hc'
          · exact hk heq
          · exact hki hc'
        rw [if_neg hki, if_neg hki']
        omega

theorem phiIdx_insert_lt (B : List (String × SPolicy)) (idx : List String) (d : String)
    (hdk : d ∈ bundleKeys B) (hd : d ∉ idx) :
    phiIdx B (d :: idx) < phiIdx B idx :=
  phiList_insert_lt idx d hd (bundleKeys B) hdk

/-- Fuel sufficiency: on a well-keyed bundle with no empty dependency refs,
the dependency loop always returns `ok` when given enough fuel (the Go
recursion terminates via the indexer). -/
theorem sortGo_total (B : List (String × SPolicy)) (hkm : KeysMatch B)
    (hne : ∀ pr ∈ B, "" ∉ depsOf pr.2) :
    ∀ (m : Nat), ∀ (ds idx : List String) (n : Nat),
      phiIdx B idx ≤ m → "" ∉ ds →
      ds.length + m * (depsTotal B + 2) < n →
      ∃ res idx', sortGo n (.deps ds) B idx = .ok (res, idx') := by
  intro m
  induction m using Nat.strong_induction_on with
  | _ m IHm =>
    intro ds
    induction ds with
    | nil =>
      intro idx n hphi hne' hn
      cases n with
      | zero => omega
      | succ n => exact ⟨[], idx, rfl⟩
    | cons d rest IHds =>
      intro idx n hphi hne' hn
      have hd : ¬ d = "" := by
        intro h
        apply hne'
        rw [← h]
        exact List.mem_cons_self _ _
      have hnerest : "" ∉ rest := fun hm => hne' (List.mem_cons_of_mem _ hm)
      cases n with
      | zero =>
        rw [List.length_cons] at hn
        omega
      | succ n =>
        by_cases hmem : d ∈ idx
        · obtain ⟨res, idx', hres⟩ := IHds idx n hphi hnerest
            (by rw [List.length_cons] at hn; omega)
          exact ⟨res, idx', by simp only [sortGo, if_neg hd, if_pos hmem]; exact hres⟩
        · cases hl : lookupA B d with
          | none =>
            obtain ⟨res, idx', hres⟩ := IHds idx n hphi hnerest
              (by rw [List.length_cons] at hn; omega)
            exact ⟨res, idx', by simp only [sortGo, if_neg hd, if_neg hmem, hl]; exact hres⟩
          | some dep =>
            have hdB : (d, dep) ∈ B := lookupA_mem d dep B hl
            have hdep : dep.mrn = d := hkm (d, dep) hdB
            have hdk : d ∈ bundleKeys B := List.mem_map_of_mem Prod.fst hdB
            have hlt := phiIdx_insert_lt B idx d hdk hmem
            cases m with
            | zero => omega
            | succ m' =>
              have hdepS : (depsOf dep).length ≤ depsTotal B := by
                unfold depsTotal
                apply List.single_le_sum (fun x _ => Nat.zero_le x)
                exact List.mem_map.mpr ⟨(d, dep), hdB, rfl⟩
              have hnedep : "" ∉ depsOf dep := hne (d, dep) hdB
              have hphi1 : phiIdx B (dep.mrn :: idx) ≤ m' := by
                rw [hdep]
                omega
              have hmul : (m' + 1) * (depsTotal B + 2)
                  = m' * (depsTotal B + 2) + (depsTotal B + 2) := Nat.succ_mul _ _
              cases n with
              | zero =>
                rw [List.length_cons, hmul] at hn
                omega
              | succ n2 =>
                have harith : (depsOf dep).length + m' * (depsTotal B + 2) < n2 := by
                  rw [List.length_cons, hmul] at hn
                  omega
                obtain ⟨r0, idx0, hres0⟩ := IHm m' (Nat.lt_succ_self m') (depsOf dep)
                  (dep.mrn :: idx) n2 hphi1 hnedep harith
                have hpol : sortGo (n2 + 1) (.pol dep) B idx = .ok (r0 ++ [dep], idx0) := by
                  simp only [sortGo, hres0]
                have hsub : ∀ x ∈ idx, x ∈ idx0 :=
                  sortGo_subset B (n2 + 1) _ idx _ idx0 hpol
                have hphi0 : phiIdx B idx0 ≤ m' + 1 :=
                  le_trans (phiIdx_mono B idx idx0 hsub) hphi
                obtain ⟨r2, idx2, hres2⟩ := IHds idx0 (n2 + 1) hphi0 hnerest
                  (by rw [List.length_cons] at hn; omega)
                refine ⟨r0 ++ [dep] ++ r2, idx2, ?_⟩
                simp only [sortGo, if_neg hd, if_neg hmem, hl, hres0, hres2]

theorem phiList_le_length (idx : List String) :
    ∀ keys : List String, phiList idx keys ≤ keys.length := by
  intro keys
  induction keys with
  | nil => exact le_refl _
  | cons k rest ih =>
    simp only [phiList, List.length_cons]
    split_ifs <;> omega

theorem sortOuter_total (B : List (String × SPolicy)) (hkm : KeysMatch B)
    (hne : ∀ pr ∈ B, "" ∉ depsOf pr.2) :
    ∀ (entries : List (String × SPolicy)) (idx : List String),
      (∀ pr ∈ entries, pr ∈ B) →
      ∃ res idx', sortOuter (sortFuel B) B entries idx = .ok (res, idx') := by
  intro entries
  induction entries with
  | nil =>
    intro idx _
    exact ⟨[], idx, rfl⟩
  | cons e rest ih =>
    intro idx hsub
    obtain ⟨k, p⟩ := e
    have hrest : ∀ pr ∈ rest, pr ∈ B := fun pr hpr => hsub pr (List.mem_cons_of_mem _ hpr)
    by_cases hmem : p.mrn ∈ idx
    · obtain ⟨res, idx', h⟩ := ih idx hrest
      exact ⟨res, idx', by simp only [sortOuter, if_pos hmem]; exact h⟩
    · have hpB : (k, p) ∈ B := hsub (k, p) (List.mem_cons_self _ _)
      have hnedep : "" ∉ depsOf p := hne (k, p) hpB
      have hphi : phiIdx B (p.mrn :: idx) ≤ B.length := by
        have h1 := phiList_le_length (p.mrn :: idx) (bundleKeys B)
        have h2 : (bundleKeys B).length = B.length := List.length_map B Prod.fst
        unfold phiIdx
        omega
      have hdepS : (depsOf p).length ≤ depsTotal B := by
        unfold depsTotal
        apply List.single_le_sum (fun x _ => Nat.zero_le x)
        exact List.mem_map.mpr ⟨(k, p), hpB, rfl⟩
      have harith : (depsOf p).length + B.length * (depsTotal B + 2) <
          (B.length + 1) * (depsTotal B + 2) + 1 := by
        rw [Nat.succ_mul]
        omega
      obtain ⟨r0, idx0, hres0⟩ := sortGo_total B hkm hne B.length (depsOf p)
        (p.mrn :: idx) ((B.length + 1) * (depsTotal B + 2) + 1) hphi hnedep harith
      have hpol : sortGo (sortFuel B) (.pol p) B idx = .ok (r0 ++ [p], idx0) := by
        show sortGo ((B.length + 1) * (depsTotal B + 2) + 1 + 1) (.pol p) B idx = _
        simp only [sortGo, hres0]
      obtain ⟨r2, idx2, hres2⟩ := ih idx0 hrest
      exact ⟨r0 ++ [p] ++ r2, idx2,
        by simp only [sortOuter, if_neg hmem, hpol, hres2]⟩

theorem sortOuter_emits (B : List (String × SPolicy)) (hkm : KeysMatch B)
    (hnd : (bundleKeys B).Nodup) (f : Nat) :
    ∀ (entries : List (String × SPolicy)) (idx : List String) (res : List SPolicy)
      (idx' : List String),
      (∀ pr ∈ entries, pr ∈ B) →
      sortOuter f B entries idx = .ok (res, idx') →
      (∀ q ∈ res, lookupA B q.mrn = some q ∧ q.mrn ∉ idx) ∧
        (res.map SPolicy.mrn).Nodup ∧
        (∀ x, x ∈ idx' ↔ x ∈ idx ∨ x ∈ res.map SPolicy.mrn) ∧
        (∀ pr ∈ entries, pr.2.mrn ∈ idx') := by
  intro entries
  induction entries with
  | nil =>
    intro idx res idx' _ h
    simp only [sortOuter, Except.ok.injEq, Prod.mk.injEq] at h
    obtain ⟨rfl, rfl⟩ := h
    exact ⟨fun q hq => absurd hq (List.not_mem_nil q), List.nodup_nil,
      fun x => by simp, fun pr hpr => absurd hpr (List.not_mem_nil pr)⟩
  | cons e rest ih =>
    intro idx res idx' hsub h
    obtain ⟨k, p⟩ := e
    have hrest : ∀ pr ∈ rest, pr ∈ B := fun pr hpr => hsub pr (List.mem_cons_of_mem _ hpr)
    have hpB : (k, p) ∈ B := hsub (k, p) (List.mem_cons_self _ _)
    have hkp : p.mrn = k := hkm (k, p) hpB
    have hlp : lookupA B p.mrn = some p := by
      rw [hkp]
      exact lookupA_of_mem_nodup B hnd k p hpB
    by_cases hmem : p.mrn ∈ idx
    · simp only [sortOuter, if_pos hmem] at h
      have IH := ih idx res idx' hrest h
      refine ⟨IH.1, IH.2.1, IH.2.2.1, ?_⟩
      intro pr hpr
      rcases List.mem_cons.mp hpr with rfl | hpr'
      · exact (IH.2.2.1 p.mrn).mpr (Or.inl hmem)
      · exact IH.2.2.2 pr hpr'
    · cases h1 : sortGo f (.pol p) B idx with
      | error e =>
        simp only [sortOuter, if_neg hmem, h1] at h
        exact Except.noConfusion h
      | ok pr1 =>
        obtain ⟨r1, idx1⟩ := pr1
        cases h2 : sortOuter f B rest idx1 with
        | error e =>
          simp only [sortOuter, if_neg hmem, h1, h2] at h
          exact Except.noConfusion h
        | ok pr2 =>
          obtain ⟨r2, idx2⟩ := pr2
          simp only [sortOuter, if_neg hmem, h1, h2, Except.ok.injEq, Prod.mk.injEq] at h
          obtain ⟨rfl, rfl⟩ := h
          have HG := sortGo_emits B hkm hnd f _ _ _ _ h1 ⟨hlp, hmem⟩
          have hidx1 := sortGo_idx B f _ _ _ _ h1
          have IH := ih idx1 r2 _ hrest h2
          refine ⟨?_, ?_, ?_, ?_⟩
          · intro q hq
            rcases List.mem_append.mp hq with hq' | hq'
            · exact HG.1 q hq'
            · have hq2 := IH.1 q hq'
              exact ⟨hq2.1, fun hx => hq2.2 ((hidx1 q.mrn).mpr (Or.inl hx))⟩
          · rw [List.map_append, List.nodup_append]
            refine ⟨HG.2, IH.2.1, ?_⟩
            intro x hx1 hx2
            obtain ⟨q2, hq2, hq2eq⟩ := List.mem_map.mp hx2
            exact (IH.1 q2 hq2).2 ((hidx1 q2.mrn).mpr (Or.inr (by rw [hq2eq]; exact hx1)))
          · intro x
            rw [IH.2.2.1 x, hidx1 x]
            simp only [List.map_append, List.mem_append]
            tauto
          · intro pr hpr
            rcases List.mem_cons.mp hpr with rfl | hpr'
            · have hm1 : p.mrn ∈ idx1 := sortGo_pol_mem B f p idx r1 idx1 h1
              exact (IH.2.2.1 p.mrn).mpr (Or.inl hm1)
            · exact IH.2.2.2 pr hpr'

theorem sortOuter_good (B : List (String × SPolicy)) (hkm : KeysMatch B)
    (hnd : (bundleKeys B).Nodup)
    (rank : String → Nat) (hra : RankedAcyclic B rank) (f : Nat) :
    ∀ (entries : List (String × SPolicy)) (idx : List String) (res : List SPolicy)
      (idx' : List String) (C : String → Prop),
      (∀ pr ∈ entries, pr ∈ B) →
      (∀ x ∈ idx, C x) →
      sortOuter f B entries idx = .ok (res, idx') →
      GoodFrom B C res ∧ (∀ x ∈ idx', C x ∨ x ∈ res.map SPolicy.mrn) := by
  intro entries
  induction entries with
  | nil =>
    intro idx res idx' C _ hcov h
    simp only [sortOuter, Except.ok.injEq, Prod.mk.injEq] at h
    obtain ⟨rfl, rfl⟩ := h
    exact ⟨trivial, fun x hx => Or.inl (hcov x hx)⟩
  | cons e rest ih =>
    intro idx res idx' C hsub hcov h
    obtain ⟨k, p⟩ := e
    have hrest : ∀ pr ∈ rest, pr ∈ B := fun pr hpr => hsub pr (List.mem_cons_of_mem _ hpr)
    have hpB : (k, p) ∈ B := hsub (k, p) (List.mem_cons_self _ _)
    have hkp : p.mrn = k := hkm (k, p) hpB
    by_cases hmem : p.mrn ∈ idx
    · simp only [sortOuter, if_pos hmem] at h
      exact ih idx res idx' C hrest hcov h
    · cases h1 : sortGo f (.pol p) B idx with
      | error e =>
        simp only [sortOuter, if_neg hmem, h1] at h
        exact Except.noConfusion h
      | ok pr1 =>
        obtain ⟨r1, idx1⟩ := pr1
        cases h2 : sortOuter f B rest idx1 with
        | error e =>
          simp only [sortOuter, if_neg hmem, h1, h2] at h
          exact Except.noConfusion h
        | ok pr2 =>
          obtain ⟨r2, idx2⟩ := pr2
          simp only [sortOuter, if_neg hmem, h1, h2, Except.ok.injEq, Prod.mk.injEq] at h
          obtain ⟨rfl, rfl⟩ := h
          have hlp : lookupA B p.mrn = some p := by
            rw [hkp]
            exact lookupA_of_mem_nodup B hnd k p hpB
          have HG := sortGo_good B hkm rank hra f _ _ _ _ C [] 0 h1
            (fun x hx => Or.inl (hcov x hx))
            ⟨hlp, hmem, fun a ha => absurd ha (List.not_mem_nil a)⟩
          have IH := ih idx1 r2 _ (fun x => C x ∨ x ∈ r1.map SPolicy.mrn) hrest
            (fun x hx => by
              rcases HG.2 x hx with hc | hr | ha
              · exact Or.inl hc
              · exact Or.inr hr
              · exact absurd ha (List.not_mem_nil x)) h2
          refine ⟨GoodFrom_append B r1 C r2 HG.1 IH.1, ?_⟩
          intro x hx
          rcases IH.2 x hx with hc | hr
          · rcases hc with hc' | hr1
            · exact Or.inl hc'
            · refine Or.inr ?_
              rw [List.map_append]
              exact List.mem_append_left _ hr1
          · refine Or.inr ?_
            rw [List.map_append]
            exact List.mem_append_right _ hr

theorem GoodFrom_depsBefore (B : List (String × SPolicy)) :
    ∀ (l1 : List SPolicy) (C : String → Prop) (q : SPolicy) (l2 : List SPolicy),
      GoodFrom B C (l1 ++ q :: l2) → ∀ d ∈ depsOf q, d ∈ bundleKeys B →
      C d ∨ d ∈ l1.map SPolicy.mrn := by
  intro l1
  induction l1 with
  | nil =>
    intro C q l2 hg d hd hdk
    exact Or.inl (hg.1 d hd hdk)
  | cons a rest ih =>
    intro C q l2 hg d hd hdk
    rcases ih _ q l2 hg.2 d hd hdk with hc | hmem
    · rcases hc with hc | heq
      · exact Or.inl hc
      · refine Or.inr ?_
        rw [List.map_cons]
        exact List.mem_cons.mpr (Or.inl heq)
    · refine Or.inr ?_
      rw [List.map_cons]
      exact List.mem_cons_of_mem _ hmem

/-- Claim C6 amended — Topological sort: for every bundle map whose keys agree
with the stored policies' MRNs (the source's documented precondition) and
whose dependency refs are non-empty MRNs, `PoliciesSortedByDependency`
returns — without error, **also when the dependency graph is cyclic** — each
policy of the map exactly once (the returned MRNs are a permutation of the
map's keys); and whenever the in-map dependency relation admits a topological
ranking (i.e. is acyclic), every dependency that is present in the map
appears before its dependents. A cycle does not fail with an error: the
visited-set recursion silently skips it (see the counterexample). -/
theorem PoliciesSortedByDependency_spec (B : List (String × SPolicy))
    (hkm : KeysMatch B) (hnd : (bundleKeys B).Nodup)
    (hne : ∀ pr ∈ B, "" ∉ depsOf pr.2) :
    ∃ l, PoliciesSortedByDependency B = .ok l ∧
      (l.map SPolicy.mrn).Perm (bundleKeys B) ∧
      (∀ rank, RankedAcyclic B rank → DepsBefore B l) := by
  obtain ⟨res, idx', hres⟩ := sortOuter_total B hkm hne B [] (fun pr h => h)
  refine ⟨res, ?_, ?_, ?_⟩
  · unfold PoliciesSortedByDependency
    rw [hres]
    rfl
  · have E := sortOuter_emits B hkm hnd (sortFuel B) B [] res idx' (fun pr h => h) hres
    have hsub1 : ∀ x ∈ res.map SPolicy.mrn, x ∈ bundleKeys B := by
      intro x hx
      obtain ⟨q, hq, rfl⟩ := List.mem_map.mp hx
      exact List.mem_map_of_mem Prod.fst (lookupA_mem _ _ _ (E.1 q hq).1)
    have hsub2 : ∀ x ∈ bundleKeys B, x ∈ res.map SPolicy.mrn := by
      intro x hx
      obtain ⟨pr, hpr, rfl⟩ := List.mem_map.mp hx
      have hm := E.2.2.2 pr hpr
      rcases (E.2.2.1 pr.2.mrn).mp hm with hidx | hres'
      · exact absurd hidx (List.not_mem_nil _)
      · rw [← hkm pr hpr]
        exact hres'
    exact (List.perm_ext_iff_of_nodup E.2.1 hnd).mpr (fun a => ⟨hsub1 a, hsub2 a⟩)
  · intro rank hra
    have G := sortOuter_good B hkm hnd rank hra (sortFuel B) B [] res idx'
      (fun _ => False) (fun pr h => h)
      (fun x hx => absurd hx (List.not_mem_nil x)) hres
    intro l1 q l2 heq d hd hdk
    rcases GoodFrom_depsBefore B l1 (fun _ => False) q l2 (heq ▸ G.1) d hd hdk with hf | hm
    · exact hf.elim
    · exact hm

/-- Witness for the amended C6 on a concrete acyclic two-policy bundle
(A depends on B): the call succeeds, emits each policy once, and B precedes
A. -/
theorem PoliciesSortedByDependency_spec_witness :
    ∃ l, PoliciesSortedByDependency [("A", ⟨"A", [["B"]]⟩), ("B", ⟨"B", []⟩)] = .ok l ∧
      (l.map SPolicy.mrn).Perm
        (bundleKeys [("A", ⟨"A", [["B"]]⟩), ("B", ⟨"B", []⟩)]) ∧
      (∀ rank, RankedAcyclic [("A", ⟨"A", [["B"]]⟩), ("B", ⟨"B", []⟩)] rank →
        DepsBefore [("A", ⟨"A", [["B"]]⟩), ("B", ⟨"B", []⟩)] l) :=
  PoliciesSortedByDependency_spec [("A", ⟨"A", [["B"]]⟩), ("B", ⟨"B", []⟩)]
    (by unfold KeysMatch; decide) (by decide) (by decide)

end Cnspec
